import Mathlib

/-!
Verification of the `text-store` text buffer (src/src/index.ts).

The TypeScript class `TextStore` keeps a document as an array of lines (split
on newline), a running `size` counter, and two caches:

* `indexToPosCache : SCache<ITextPosition>` — a sparse array keyed by
  `index / DEFAULT_BLOCK_SIZE`, holding the zero-based position of each cached
  block-aligned index;
* `lineToIndexCache : VCache<number>` — a sparse array keyed by zero-based line
  number, holding (by the convention of the code) the start offset of the line
  plus one, so that a present entry is always truthy.

This file is a shallow embedding of that class.  JS numbers are modelled by
`Int` everywhere the program only ever produces integers; the one place where
the source produces genuine fractions — the midpoints of
`findHighestCachedLineToIndex`, whose `diff++` post-increment returns the
unincremented value, so odd differences are divided by two exactly — is
modelled by dyadic fractions `num / 2^exp` (`Dy` below), which are exactly the
values IEEE-754 doubles take in that recursion while it stays exact.
Strings are modelled as `List Char`; sparse JS arrays are modelled as functions
`Int → Option _` (out-of-bounds and hole reads give `none`, like `undefined`).
JS exceptions are modelled by `Except JsError`; in particular reading
`.length` of `undefined` is `JsError.typeError`.
-/

/-- Strings are lists of characters. -/
abbrev Str := List Char

/-- `DEFAULT_BLOCK_SIZE` from the source (block granularity of the index cache). -/
def DEFAULT_BLOCK_SIZE : Int := 10

/-- The `ITextPosition` interface: a (line, col) pair.  The public API is
1-based; internally the class converts to zero-based pairs of the same shape. -/
structure ITextPosition where
  line : Int
  col : Int
deriving DecidableEq, Repr

/-- The `ITextRange` interface.  The source field `end` is a Lean keyword, so
it is called `endPos` here. -/
structure ITextRange where
  start : ITextPosition
  endPos : ITextPosition
deriving DecidableEq, Repr

/-- The runtime errors the class can raise: the three documented `RangeError`s
and the `TypeError` JS raises when a property of `undefined` is read. -/
inductive JsError where
  | positionOutOfRange
  | invalidPosition
  | indexOutOfRange
  | typeError
deriving DecidableEq, Repr

instance {ε α : Type} [DecidableEq ε] [DecidableEq α] : DecidableEq (Except ε α) :=
  fun a b =>
    match a, b with
    | .ok x, .ok y =>
      if h : x = y then isTrue (by rw [h]) else isFalse (by intro hh; cases hh; exact h rfl)
    | .error x, .error y =>
      if h : x = y then isTrue (by rw [h]) else isFalse (by intro hh; cases hh; exact h rfl)
    | .ok _, .error _ => isFalse (by intro h; cases h)
    | .error _, .ok _ => isFalse (by intro h; cases h)

/-- `str.split(/\n/)`: split a string at every newline; the result always has
one more part than there are newlines, so it is never empty. -/
def splitNl : Str → List Str
  | [] => [[]]
  | c :: rest =>
    if c = '\n' then [] :: splitNl rest
    else
      match splitNl rest with
      | [] => [[c]]
      | h :: t => (c :: h) :: t

/-- `lines.join('\n')`. -/
def joinLines : List Str → Str
  | [] => []
  | [l] => l
  | l :: ls => l ++ '\n' :: joinLines ls

/-- JS array element read `lines[i]`: `undefined` (here `none`) outside
`[0, length)`. -/
def lineAt (lines : List Str) (i : Int) : Option Str :=
  if 0 ≤ i then lines.get? i.toNat else none

/-- Length of `lines[i]`, as an integer; `0` if the line does not exist
(only used where existence is separately guaranteed). -/
def lineLenZ (lines : List Str) (i : Int) : Int :=
  (((lineAt lines i).getD []).length : Int)

/-- Sum of `length + 1` (content plus one newline) over a list of lines. -/
def sumLens (ls : List Str) : Int :=
  (ls.map (fun l => (l.length : Int) + 1)).sum

/-- Start offset of line `L` in the joined document: the sum of
`length + 1` (content plus newline) over all earlier lines. -/
def lineStartN (lines : List Str) (L : Nat) : Int :=
  sumLens (lines.take L)

/-- `lineStartN` at an integer line number (negative means line 0). -/
def lineStartZ (lines : List Str) (L : Int) : Int :=
  lineStartN lines L.toNat

/-- Length of the joined document. -/
def totalLenZ (lines : List Str) : Int :=
  ((joinLines lines).length : Int)

/-- The `clamp` npm package: `clamp(value, min, max)`, which swaps the roles of
the bounds when `min < max` fails. -/
def clampJs (value lo hi : Int) : Int :=
  if lo < hi then
    if value < lo then lo else if value > hi then hi else value
  else
    if value < hi then hi else if value > lo then lo else value

/-- `Math.floor(index / DEFAULT_BLOCK_SIZE) * DEFAULT_BLOCK_SIZE`
(`Int.ediv` is floor division for the positive divisor 10). -/
def roundToLowerBlockSize (index : Int) : Int :=
  index.ediv 10 * 10

/-- `SCache<ITextPosition>`: a sparse JS array addressed at `idx / 10`.
Modelled as a function from the stored key to an optional value together with
the JS array's `length` property, which `slice` consults: writing at a
non-negative key `k` raises `length` to at least `k + 1` (writing at a
negative key stores a plain property that does not count as an array index),
and `flush(from)` is `arr.slice(0, from / 10)`, which for a non-negative end
keeps the indices `0 ≤ k < min(end, length)` and for a negative end counts
from `length`, keeping `0 ≤ k < max(length + end, 0)`; the copy `slice` makes
drops any negative-key property, and its `length` is the number of kept
index slots. -/
structure SCache where
  arr : Int → Option ITextPosition
  len : Int

def SCache.get (c : SCache) (idx : Int) : Option ITextPosition :=
  c.arr (idx.ediv 10)

def SCache.set (c : SCache) (idx : Int) (v : ITextPosition) : SCache :=
  ⟨fun k => if k = idx.ediv 10 then some v else c.arr k,
   if 0 ≤ idx.ediv 10 then max c.len (idx.ediv 10 + 1) else c.len⟩

def SCache.flush (c : SCache) (frm : Int) : SCache :=
  let e := frm.ediv 10
  let cut := if e < 0 then max (c.len + e) 0 else min e c.len
  ⟨fun k => if 0 ≤ k ∧ k < cut then c.arr k else none, cut⟩

/-- `VCache<number>`: a sparse JS array addressed directly by line number,
with the same faithful `length`/`slice` behaviour as `SCache`. -/
structure VCache where
  arr : Int → Option Int
  len : Int

def VCache.get (c : VCache) (idx : Int) : Option Int :=
  c.arr idx

def VCache.set (c : VCache) (idx : Int) (v : Int) : VCache :=
  ⟨fun k => if k = idx then some v else c.arr k,
   if 0 ≤ idx then max c.len (idx + 1) else c.len⟩

def VCache.flush (c : VCache) (frm : Int) : VCache :=
  let cut := if frm < 0 then max (c.len + frm) 0 else min frm c.len
  ⟨fun k => if 0 ≤ k ∧ k < cut then c.arr k else none, cut⟩

/-- JS truthiness filter for a cached number: `undefined` and `0` are falsy
(the code tests cached line offsets with `if (!x)`). -/
def truthyInt : Option Int → Option Int
  | none => none
  | some v => if v = 0 then none else some v

/-- Dyadic fractions `num / 2^exp`: the exact values of the IEEE-754 doubles
produced by the midpoint arithmetic of `findHighestCachedLineToIndex`. -/
structure Dy where
  num : Int
  exp : Nat
deriving Repr

/-- The integer `n` as a dyadic. -/
def Dy.ofInt (n : Int) : Dy := ⟨n, 0⟩

/-- Is `d` an integer, and if so which one (`2^exp ∣ num`)? -/
def Dy.toInt? (d : Dy) : Option Int :=
  if d.num % (2 ^ d.exp : Int) = 0 then some (d.num / (2 ^ d.exp : Int)) else none

/-- `(s + e) / 2` for integer `s` and dyadic `e` — the midpoint
`((end - start) / 2) + start` of the line search (both branches of the
source's parity test divide the *old* `diff` by two, because `diff++`
post-increments). -/
def Dy.midWith (s : Int) (e : Dy) : Dy :=
  ⟨s * 2 ^ e.exp + e.num, e.exp + 1⟩

def Dy.neg? (d : Dy) : Bool := d.num < 0

/-- Value equality `(s : ℚ) = d` for integer `s`. -/
def Dy.eqInt (d : Dy) (s : Int) : Bool := d.num = s * 2 ^ d.exp

/-- Value equality of two dyadics. -/
def Dy.eq (d e : Dy) : Bool := d.num * 2 ^ e.exp = e.num * 2 ^ d.exp

/-- `findHighestCachedLineToIndex(start, end)`: the "binary kinda search" of
the line cache.  `start` is always an integer (hits happen only at integer
keys); `end` becomes fractional as soon as an odd difference is halved, and
from then on every midpoint is a non-integer that misses the sparse array, so
the source recurses on `(start, middle)` until the double `middle` rounds onto
`start`, whereupon it returns the entry at `start` if that is truthy and
`undefined` otherwise.  The recursion is modelled with fuel; the fuel-exhausted
case returns exactly that rounding-collapse result. -/
def findHighestCachedLineToIndex (vc : VCache) : Nat → Int → Dy → Option (Int × Int)
  | 0, s, _ =>
    match truthyInt (vc.get s) with
    | some v => some (s, v)
    | none => none
  | n + 1, s, e =>
    let middleIdx : Dy := Dy.midWith s e
    if middleIdx.neg? then none
    else
      match truthyInt (match middleIdx.toInt? with
                       | some m => vc.get m
                       | none => none) with
      | some ret =>
        if ¬ middleIdx.eqInt s ∧ ¬ middleIdx.eq e then
          findHighestCachedLineToIndex vc n ((middleIdx.toInt?).getD 0) e
        else
          some ((middleIdx.toInt?).getD 0, ret)
      | none =>
        if ¬ middleIdx.eqInt s then
          findHighestCachedLineToIndex vc n s middleIdx
        else
          none

/-- Fuel for `findHighestCachedLineToIndex`: an IEEE-754 double halved
repeatedly collapses within about 1130 steps, and the integer phase of the
search needs at most `log2` of the line count. -/
def lineSearchFuel : Nat := 1200

/-- `findHighestCachedIndexToPos(start, end)`: the block-cache variant.  Both
bounds stay multiples of 10 (the midpoint of two multiples of 10 is an integer
and is rounded back down to a multiple of 10), so this search is purely
integral; it is modelled with fuel, which the halving bounds by the bit length
of the interval. -/
def findHighestCachedIndexToPos (bc : SCache) :
    Nat → Int → Int → Option (Int × ITextPosition)
  | 0, _, _ => none
  | n + 1, s, e =>
    let m0 : Int := (e - s) / 2 + s
    let middleIdx : Int := if m0 % 10 ≠ 0 then roundToLowerBlockSize m0 else m0
    if middleIdx < DEFAULT_BLOCK_SIZE then none
    else
      match bc.get middleIdx with
      | some ret =>
        if s ≠ middleIdx ∧ e ≠ middleIdx then
          findHighestCachedIndexToPos bc n middleIdx e
        else
          some (middleIdx, ret)
      | none =>
        if s ≠ middleIdx then
          findHighestCachedIndexToPos bc n s middleIdx
        else
          none

/-- Fuel for `findHighestCachedIndexToPos`. -/
def blockSearchFuel : Nat := 300

/-- The `TextStore` instance state: document lines, size counter, and the two
caches.  The field `str` is assigned in the constructor and never used
afterwards, exactly as in the source. -/
structure TextStore where
  str : Str
  lines : List Str
  size : Int
  indexToPosCache : SCache
  lineToIndexCache : VCache

namespace TextStore

/-- `new TextStore(str)`. -/
def construct (str : Str) : TextStore :=
  { str := str
    lines := splitNl str
    size := (str.length : Int)
    indexToPosCache := ⟨fun _ => none, 0⟩
    lineToIndexCache := ⟨fun _ => none, 0⟩ }

/-- `convertPosToZeroBased`. -/
def convertPosToZeroBased (pos : ITextPosition) : ITextPosition :=
  ⟨pos.line - 1, pos.col - 1⟩

/-- `checkTextPosition`, including its JS evaluation order: the range test
reads `lines[pos.line].length`, which is a `TypeError` when `pos.line` is
negative or equal to the line count, *before* the negativity test runs. -/
def checkTextPosition (lines : List Str) (pos : ITextPosition) : Except JsError Unit :=
  if pos.line > (lines.length : Int) then .error .positionOutOfRange
  else
    match lineAt lines pos.line with
    | none => .error .typeError
    | some l =>
      if pos.col > (l.length : Int) then .error .positionOutOfRange
      else if pos.col < 0 ∨ pos.line < 0 then .error .invalidPosition
      else .ok ()

/-- `clampTextPosition`: note the source clamps the *zero-based* line into
`[1, lines.length]`, and then reads `lines[clampedLine].length`, which is a
`TypeError` when the clamp lands on `lines.length`. -/
def clampTextPosition (lines : List Str) (pos : ITextPosition) :
    Except JsError ITextPosition :=
  let clampedLine := clampJs pos.line 1 (lines.length : Int)
  match lineAt lines clampedLine with
  | none => .error .typeError
  | some l => .ok ⟨clampedLine, clampJs pos.col 1 (l.length : Int)⟩

/-- The loop body of `zeroBasedPosToIndex` after the anchor is chosen: walk
from `currentLine` to the target `line`, caching `offset + 1` for every line
passed (the `newLineCharLen` summand is `1` because `currentLine` stays below
`lines.length` whenever the loop runs on a validated position).  The source
loop is `while (cont)` with `cont` computed once and an internal `break`; it is
entered only when `currentLine ≤ line`, and then runs exactly
`line - currentLine + 1` times, which is the fuel used here. -/
def posWalk (lines : List Str) : Nat → VCache → Int → Int → Int → Int × VCache
  | 0, vc, _, offset, _ => (offset, vc)
  | n + 1, vc, currentLine, offset, line =>
    let vc1 := vc.set currentLine (offset + 1)
    if currentLine = line then (offset, vc1)
    else posWalk lines n vc1 (currentLine + 1) (offset + lineLenZ lines currentLine + 1) line

/-- The anchor selection of `zeroBasedPosToIndex`: probe the line cache at
`line` and `line - 1` (`if (!x)` truthiness), fall back to the anchor search,
and substitute the synthetic `{index: 0, line: 0}` anchor on no result. -/
def lineAnchor (vc : VCache) (target : Int) : Int × Int :=
  match truthyInt (vc.get target) with
  | some v => (target, v)
  | none =>
    match truthyInt (vc.get (target - 1)) with
    | some v => (target - 1, v)
    | none =>
      match findHighestCachedLineToIndex vc lineSearchFuel 0 (Dy.ofInt target) with
      | some r => r
      | none => (0, 0)

/-- `zeroBasedPosToIndex`: choose the anchor, then walk forward to the target
line, cumulating `offset` (`const cont = currentLine <= line` is computed once,
so the loop runs only when the anchor is at or below the target).  Returns the
computed offset and the updated line cache. -/
def zeroBasedPosToIndex (lines : List Str) (vc : VCache) (zp : ITextPosition) :
    Int × VCache :=
  let anchor := lineAnchor vc zp.line
  let closestLineNum := anchor.1
  let offset0 := anchor.2 - 1
  if closestLineNum ≤ zp.line then
    let r := posWalk lines ((zp.line - closestLineNum).toNat + 1) vc closestLineNum offset0 zp.line
    (r.1 + zp.col, r.2)
  else
    (offset0 + zp.col, vc)

/-- The inner `while (closestIndex !== highestIndexableStop)` loop of
`indexToPosition`: step `closestIndex` up by 10, writing a block-cache entry at
every step where none is present.  On the runs the program makes,
`closestIndex` is a multiple of 10 that is at most `stop` (also a multiple of
10), so the loop runs exactly `(stop - closestIndex) / 10` times, which is the
iteration count used here. -/
def populateBlocks (line stepped : Int) : Nat → SCache → Int → SCache × Int
  | 0, bc, closest => (bc, closest)
  | n + 1, bc, closest =>
    let c1 := closest + 10
    let bc1 :=
      if (bc.get c1).isSome then bc else bc.set c1 ⟨line, c1 - stepped⟩
    populateBlocks line stepped n bc1 c1

/-- The line walk of `indexToPosition`, starting from the anchor line: for each
line compute its span (`length + 1`; the `newLineCharLen` comparison
`currentLine < lines.length` compares the constant `0`, so it is `1` for every
nonempty document), populate block-cache entries up to the rounded-down end of
the span, cache the line start, and stop at the first line whose span passes
`index`.  Recursion is on the list of remaining lines, which is how the JS
loop condition `lineNumber < lines.length` terminates.  The inner
`while (closestIndex !== highestIndexableStop)` loop of the source does not
always terminate (it steps `closestIndex` up by 10 and can start above the
stop); this function gives the result of the walk *when that loop terminates
at every line*, which `idxWalkDiverges` below decides, and every statement
about a walk result is therefore paired with that predicate. -/
def idxWalk (index : Int) :
    List Str → Int → Int → Int → SCache → VCache → Int × Int × SCache × VCache
  | [], lineNumber, _, _, bc, vc => (lineNumber, 0, bc, vc)
  | cLine :: rest, lineNumber, closest, stepped, bc, vc =>
    let charCount : Int := (cLine.length : Int) + 1
    let after := stepped + charCount
    let stop := roundToLowerBlockSize after
    let pr := populateBlocks lineNumber stepped ((stop - closest).ediv 10).toNat bc closest
    let vc1 := vc.set lineNumber (stepped + 1)
    if after > index then (lineNumber, index - stepped, pr.1, vc1)
    else idxWalk index rest (lineNumber + 1) pr.2 after pr.1 vc1

/-- The anchor selection of `indexToPosition`: probe the block cache at the
rounded-down index and one block below it, fall back to the anchor search, and
substitute the synthetic `{index: 0, pos: {line: 0, col: 0}}` anchor on no
result. -/
def indexAnchor (bc : SCache) (closest0 : Int) : Int × ITextPosition :=
  match bc.get closest0 with
  | some p => (closest0, p)
  | none =>
    match bc.get (closest0 - DEFAULT_BLOCK_SIZE) with
    | some p => (closest0 - DEFAULT_BLOCK_SIZE, p)
    | none =>
      match findHighestCachedIndexToPos bc blockSearchFuel
          DEFAULT_BLOCK_SIZE closest0 with
      | some r => r
      | none => (0, ⟨0, 0⟩)

/-- `indexToPosition(index)`. -/
def indexToPosition (s : TextStore) (index : Int) :
    Except JsError (ITextPosition × TextStore) :=
  if index > s.size then .error .indexOutOfRange
  else
    let anchor := indexAnchor s.indexToPosCache (roundToLowerBlockSize index)
    let w := idxWalk index (s.lines.drop anchor.2.line.toNat) anchor.2.line anchor.1
      (anchor.1 - anchor.2.col) s.indexToPosCache s.lineToIndexCache
    .ok (⟨w.1 + 1, w.2.1 + 1⟩,
      { s with indexToPosCache := w.2.2.1, lineToIndexCache := w.2.2.2 })

/-- Termination of the inner `while (closestIndex !== highestIndexableStop)`
loop over the whole line walk: at each line the loop steps `closestIndex` up
by 10 until it *equals* the rounded-down span end, so it terminates exactly
when `closestIndex ≤ stop` and the difference is a multiple of 10, and then
leaves `closestIndex = stop`; otherwise the source loops forever.  `true`
means the walk — and with it the whole `indexToPosition` call — never
returns. -/
def idxWalkDiverges (index : Int) : List Str → Int → Int → Bool
  | [], _, _ => false
  | cLine :: rest, closest, stepped =>
    let after := stepped + ((cLine.length : Int) + 1)
    let stop := roundToLowerBlockSize after
    if closest ≤ stop ∧ (stop - closest) % 10 = 0 then
      if after > index then false
      else idxWalkDiverges index rest stop after
    else true

/-- Whether `indexToPosition(index)` fails to terminate: the bound check and
the anchor selection always complete, so the call hangs exactly when the line
walk from the chosen anchor does. -/
def indexToPositionDiverges (s : TextStore) (index : Int) : Bool :=
  if index > s.size then false
  else
    let anchor := indexAnchor s.indexToPosCache (roundToLowerBlockSize index)
    idxWalkDiverges index (s.lines.drop anchor.2.line.toNat) anchor.1
      (anchor.1 - anchor.2.col)

/-- `positionToIndex(pos)`. -/
def positionToIndex (s : TextStore) (pos : ITextPosition) :
    Except JsError (Int × TextStore) :=
  let zp := convertPosToZeroBased pos
  match checkTextPosition s.lines zp with
  | .error e => .error e
  | .ok _ =>
    let r := zeroBasedPosToIndex s.lines s.lineToIndexCache zp
    .ok (r.1, { s with lineToIndexCache := r.2 })

/-- `flushCache(from)`: compute the index of the zero-based position (warming
the line cache as a side effect), then truncate the line cache from
`from.line` and the block cache from the block of that index. -/
def flushCache (s : TextStore) (frm : ITextPosition) : TextStore :=
  let r := zeroBasedPosToIndex s.lines s.lineToIndexCache frm
  { s with
    lineToIndexCache := (r.2).flush frm.line
    indexToPosCache := s.indexToPosCache.flush (roundToLowerBlockSize r.1) }

/-- `Array.prototype.splice(start, deleteCount, ...items)` for the calls the
class makes (`start` is a validated line number, so nonnegative): returns the
new array and the removed elements; a negative `deleteCount` deletes nothing. -/
def listSplice (l : List Str) (start delete : Int) (items : List Str) :
    List Str × List Str :=
  let st := min start.toNat l.length
  let del := min delete.toNat (l.length - st)
  (l.take st ++ items ++ l.drop (st + del), (l.drop st).take del)

/-- The state `insert` builds once validation has passed: flush the caches
from the zero-based position, bump the size, and splice the updated line(s)
over the edited line. -/
def insertApply (s : TextStore) (str : Str) (pos : ITextPosition) : TextStore :=
  let s1 := flushCache s pos
  let line := (lineAt s1.lines pos.line).getD []
  let updated := line.take pos.col.toNat ++ str ++ line.drop pos.col.toNat
  { s1 with
    size := s1.size + (str.length : Int)
    lines := (listSplice s1.lines pos.line 1 (splitNl updated)).1 }

/-- `insert(str, at)`. -/
def insert (s : TextStore) (str : Str) (at_ : ITextPosition) :
    Except JsError TextStore :=
  if str.length = 0 then .ok s
  else
    match checkTextPosition s.lines (convertPosToZeroBased at_) with
    | .error e => .error e
    | .ok _ => .ok (insertApply s str (convertPosToZeroBased at_))

/-- The state `replace` builds once both endpoints validate: flush the caches
from the start position, build the replacement region, splice it over the
line span, and adjust the size by the removed/inserted difference. -/
def replaceApply (s : TextStore) (start en : ITextPosition) (str : Str) : TextStore :=
  let s1 := flushCache s start
  let startLine := (lineAt s1.lines start.line).getD []
  let endLine := (lineAt s1.lines en.line).getD []
  let updated := startLine.take start.col.toNat ++ str ++ endLine.drop en.col.toNat
  let sp := listSplice s1.lines start.line (en.line + 1 - start.line) (splitNl updated)
  { s1 with
    lines := sp.1
    size := s1.size - ((joinLines sp.2).length : Int) + (updated.length : Int) }

/-- `replace(range, str)`. -/
def replace (s : TextStore) (range : ITextRange) (str : Str) :
    Except JsError TextStore :=
  match checkTextPosition s.lines (convertPosToZeroBased range.start) with
  | .error e => .error e
  | .ok _ =>
    match checkTextPosition s.lines (convertPosToZeroBased range.endPos) with
    | .error e => .error e
    | .ok _ =>
      .ok (replaceApply s (convertPosToZeroBased range.start)
        (convertPosToZeroBased range.endPos) str)

/-- `remove(range)` is `replace(range, '')`. -/
def remove (s : TextStore) (range : ITextRange) : Except JsError TextStore :=
  replace s range []

/-- `getSize()`. -/
def getSize (s : TextStore) : Int := s.size

/-- `getContents()` with no range. -/
def getContentsAll (s : TextStore) : Str := joinLines s.lines

/-- `getContents(range)`: zero-base and clamp both endpoints (each clamp can
raise the `TypeError` described at `clampTextPosition`), then join the prefix
of the start line, the whole lines strictly between, and the suffix of the end
line. -/
def getContents (s : TextStore) (range : ITextRange) : Except JsError Str :=
  let start := convertPosToZeroBased range.start
  let en := convertPosToZeroBased range.endPos
  match clampTextPosition s.lines start with
  | .error e => .error e
  | .ok cs =>
    match clampTextPosition s.lines en with
    | .error e => .error e
    | .ok ce =>
      let part1 := ((lineAt s.lines cs.line).getD []).take cs.col.toNat
      let mid := (s.lines.drop (cs.line + 1).toNat).take (ce.line - (cs.line + 1)).toNat
      let part3 := ((lineAt s.lines ce.line).getD []).drop ce.col.toNat
      .ok (joinLines ([part1] ++ mid ++ [part3]))

end TextStore

/-! ### Specification-level definitions -/

/-- `zp` is a valid zero-based position of `lines`: line in range, column
between 0 and the line length (the end-of-line insertion point). -/
def ValidZP (lines : List Str) (zp : ITextPosition) : Prop :=
  0 ≤ zp.line ∧ zp.line < (lines.length : Int) ∧ 0 ≤ zp.col ∧
    zp.col ≤ lineLenZ lines zp.line

/-- `(L, c)` is the (zero-based) position of offset `i` in `lines`, by the
accounting the class uses: every line spans `length + 1` offsets (its content
plus one newline slot, also after the last line), and `i` falls on the first
line whose span reaches past it. -/
def IdealAt (lines : List Str) (i L c : Int) : Prop :=
  0 ≤ L ∧ L < (lines.length : Int) ∧ lineStartZ lines L ≤ i ∧
    i < lineStartZ lines L + lineLenZ lines L + 1 ∧ c = i - lineStartZ lines L

/-- Soundness of one block-cache entry (slot `b`, i.e. document offset
`10 * b`): it names an existing line, a column between 0 and one past the
line's span, and the line's start plus the column is exactly the offset. -/
def BlockEntrySound (lines : List Str) (b : Int) (p : ITextPosition) : Prop :=
  1 ≤ b ∧ 0 ≤ p.line ∧ p.line < (lines.length : Int) ∧ 0 ≤ p.col ∧
    p.col ≤ lineLenZ lines p.line + 1 ∧ lineStartZ lines p.line + p.col = 10 * b

/-- Soundness of one line-cache entry: the stored value is the line's start
offset plus one (entries written by `indexToPosition`, and by
`zeroBasedPosToIndex` when its anchor came from such an entry) or the line's
start offset itself (entries written downstream of the synthetic
`{index: 0, line: 0}` anchor, which is one less than the encoding requires). -/
def LineEntrySound (lines : List Str) (L v : Int) : Prop :=
  0 ≤ L ∧ L < (lines.length : Int) ∧
    (v = lineStartZ lines L ∨ v = lineStartZ lines L + 1)

/-- The state invariant every reachable `TextStore` satisfies. -/
structure INV (s : TextStore) : Prop where
  ne : s.lines ≠ []
  noNl : ∀ l ∈ s.lines, '\n' ∉ l
  szLe : s.size ≤ totalLenZ s.lines
  bcS : ∀ b p, s.indexToPosCache.arr b = some p → BlockEntrySound s.lines b p
  vcS : ∀ L v, s.lineToIndexCache.arr L = some v → LineEntrySound s.lines L v

/-- Weak soundness of one block-cache entry: the slot is positive, the line
exists, the column is non-negative, and the line's start plus the column is
exactly the slot's offset `10 * b`.  Unlike `BlockEntrySound` this does not
bound the column by the line's span: an entry retained by the negative-index
`slice(0, -1)` flush (see `SCache.flush`) names line 0 with its original
column after the edit has rewritten line 0, so the column can exceed the new
span while the arithmetic — which is all the walks decode — still holds. -/
def BlockEntryArith (lines : List Str) (b : Int) (p : ITextPosition) : Prop :=
  1 ≤ b ∧ 0 ≤ p.line ∧ p.line < (lines.length : Int) ∧ 0 ≤ p.col ∧
    lineStartZ lines p.line + p.col = 10 * b

/-- Well-formedness of a line cache as a JS array: the `length` property is
non-negative and bounds every present key from above (negative keys, which
the class never writes, are plain properties below any length). -/
def VCWf (c : VCache) : Prop :=
  0 ≤ c.len ∧ ∀ L v, c.arr L = some v → L < c.len

/-- The invariant that every reachable `TextStore` satisfies.  Line-cache
entries are fully sound; block-cache entries are only arithmetically sound
(`BlockEntryArith`), because the negative-index block flush of an edit at
offset 0 with a cold line cache retains entries over an edited document; and
whenever the line cache is cold at line 0 (`undefined` or the falsy `0`),
every block entry names line 0 — the only line whose start offset an edit at
offset 0 cannot move, which is what keeps the retained entries
arithmetically sound. -/
structure RINV (s : TextStore) : Prop where
  ne : s.lines ≠ []
  noNl : ∀ l ∈ s.lines, '\n' ∉ l
  szLe : s.size ≤ totalLenZ s.lines
  vcS : ∀ L v, s.lineToIndexCache.arr L = some v → LineEntrySound s.lines L v
  vcWf : VCWf s.lineToIndexCache
  bcA : ∀ b p, s.indexToPosCache.arr b = some p → BlockEntryArith s.lines b p
  cz : truthyInt (s.lineToIndexCache.arr 0) = none →
    ∀ b p, s.indexToPosCache.arr b = some p → p.line = 0

/-- States reachable by the public API (`remove` is literally
`replace range ''`, so the `replace` rule covers it; `getSize` and
`getContents` do not produce states).  An `indexToPosition` call whose walk
diverges (see `idxWalkDiverges`) never returns in the program, so it reaches
no new program state; the rule here admits the state its cache writes would
have produced, an over-approximation that only strengthens the invariants
proved about every reachable state. -/
inductive Reachable : TextStore → Prop
  | construct (str : Str) : Reachable (TextStore.construct str)
  | insert {s s1 : TextStore} {str : Str} {at_ : ITextPosition} :
      Reachable s → TextStore.insert s str at_ = .ok s1 → Reachable s1
  | replace {s s1 : TextStore} {range : ITextRange} {str : Str} :
      Reachable s → TextStore.replace s range str = .ok s1 → Reachable s1
  | indexToPosition {s s1 : TextStore} {i : Int} {p : ITextPosition} :
      Reachable s → TextStore.indexToPosition s i = .ok (p, s1) → Reachable s1
  | positionToIndex {s s1 : TextStore} {pos : ITextPosition} {i : Int} :
      Reachable s → TextStore.positionToIndex s pos = .ok (i, s1) → Reachable s1

/-- States reachable when every `replace`/`remove` call uses a well-ordered
range (`start.line ≤ end.line`) — the caller obligation the specification
states for ranges. -/
inductive ReachableOrd : TextStore → Prop
  | construct (str : Str) : ReachableOrd (TextStore.construct str)
  | insert {s s1 : TextStore} {str : Str} {at_ : ITextPosition} :
      ReachableOrd s → TextStore.insert s str at_ = .ok s1 → ReachableOrd s1
  | replace {s s1 : TextStore} {range : ITextRange} {str : Str} :
      ReachableOrd s → range.start.line ≤ range.endPos.line →
      TextStore.replace s range str = .ok s1 → ReachableOrd s1
  | indexToPosition {s s1 : TextStore} {i : Int} {p : ITextPosition} :
      ReachableOrd s → TextStore.indexToPosition s i = .ok (p, s1) → ReachableOrd s1
  | positionToIndex {s s1 : TextStore} {pos : ITextPosition} {i : Int} :
      ReachableOrd s → TextStore.positionToIndex s pos = .ok (i, s1) → ReachableOrd s1

/-- A successful mutation of `s` into `s1` whose zero-based edit position is
`p`: a nonempty `insert` at `p`, or a `replace` (hence also a `remove`) whose
range starts at `p`. -/
def EditsAt (s : TextStore) (p : ITextPosition) (s1 : TextStore) : Prop :=
  (∃ str at_, str ≠ [] ∧ TextStore.convertPosToZeroBased at_ = p ∧
      TextStore.insert s str at_ = .ok s1) ∨
  (∃ range str, TextStore.convertPosToZeroBased range.start = p ∧
      TextStore.replace s range str = .ok s1)

/-! Concrete documents and result extractors used by the concrete
counterexample/witness evaluations. -/

/-- The document `"hello\nworld"` of the specification's scenarios. -/
def hwStr : Str := "hello\nworld".toList

/-- The value `positionToIndex` returns, if it succeeds. -/
def posIdxVal (s : TextStore) (pos : ITextPosition) : Option Int :=
  match TextStore.positionToIndex s pos with
  | .ok r => some r.1
  | .error _ => none

/-- The state after a successful `indexToPosition` call (the input state if it
fails). -/
def afterIdxToPos (s : TextStore) (i : Int) : TextStore :=
  match TextStore.indexToPosition s i with
  | .ok r => r.2
  | .error _ => s

/-- Run `positionToIndex` and then `indexToPosition` on its result: the
position→index→position round trip. -/
def roundTripPI (s : TextStore) (pos : ITextPosition) : Option ITextPosition :=
  match TextStore.positionToIndex s pos with
  | .ok (i, s1) =>
    match TextStore.indexToPosition s1 i with
    | .ok (p, _) => some p
    | .error _ => none
  | .error _ => none

/-- The state after a successful `remove` (the input state if it fails). -/
def afterRemove (s : TextStore) (range : ITextRange) : TextStore :=
  match TextStore.remove s range with
  | .ok r => r
  | .error _ => s

/-- The document `"a\nb"` used by the concrete size-desync evaluations. -/
def abStr : Str := "a\nb".toList

/-- The state after a successful `insert` (the input state if it fails). -/
def afterInsert (s : TextStore) (str : Str) (at_ : ITextPosition) : TextStore :=
  match TextStore.insert s str at_ with
  | .ok r => r
  | .error _ => s

/-- The error `positionToIndex` raises, if it raises one. -/
def posIdxErr (s : TextStore) (pos : ITextPosition) : Option JsError :=
  match TextStore.positionToIndex s pos with
  | .ok _ => none
  | .error e => some e

/-- The error `indexToPosition` raises, if it raises one. -/
def idxPosErr (s : TextStore) (i : Int) : Option JsError :=
  match TextStore.indexToPosition s i with
  | .ok _ => none
  | .error e => some e

/-- The state reached from `"a\nb"` by two inverted-range `remove`s followed by
an ordered `remove` of the whole document: its size counter is negative. -/
def c10state : TextStore :=
  afterRemove (afterRemove (afterRemove (TextStore.construct abStr)
    ⟨⟨2, 1⟩, ⟨1, 1⟩⟩) ⟨⟨2, 1⟩, ⟨1, 1⟩⟩) ⟨⟨1, 1⟩, ⟨4, 2⟩⟩

/-- The state after a successful `replace` (the input state if it fails). -/
def afterReplace (s : TextStore) (range : ITextRange) (str : Str) : TextStore :=
  match TextStore.replace s range str with
  | .ok r => r
  | .error _ => s

/-- A two-line document with a 35-character first line and a 30-character
second line, used to drive the block cache past the first line. -/
def wideStr : Str := "AAAAABBBBBCCCCCDDDDDEEEEEFFFFFGGGGG\naaaaabbbbbcccccdddddeeeeefffff".toList

/-- The replacement text of the hang scenario: a 2-character line and a
60-character line. -/
def hangRepl : Str := 'a' :: 'b' :: '\n' :: List.replicate 60 'C'

/-- The state reached from `wideStr` by `indexToPosition 60` (which caches the
block entry `{line 0, col 10}` at slot 1), `insert "x" at ⟨1,36⟩` (which
flushes the line cache entirely and the block cache from block 30, keeping
slots 1 and 2), and `replace (⟨1,1⟩..⟨2,31⟩) hangRepl`: that edit runs with a
cold line cache, computes index −1 for position `{0,0}`, and its
`slice(0, -1)` block flush *retains* the entry at slot 1 even though the edit
rewrites the whole document to `"ab\nCCC…C"`. -/
def hangState : TextStore :=
  afterReplace (afterInsert (afterIdxToPos (TextStore.construct wideStr) 60)
    (['x']) ⟨1, 36⟩) ⟨⟨1, 1⟩, ⟨2, 31⟩⟩ hangRepl

/-- The `updated` string `replace` builds before splicing: the prefix of the
start line, the replacement, and the suffix of the end line. -/
def updatedRegion (lines : List Str) (ps pe : ITextPosition) (str : Str) : Str :=
  ((lineAt lines ps.line).getD []).take ps.col.toNat ++ str
    ++ ((lineAt lines pe.line).getD []).drop pe.col.toNat

/-! ### Basic lemmas: split and join, sums of line lengths -/

theorem splitNl_ne_nil (s : Str) : splitNl s ≠ [] := by
  induction s with
  | nil => simp [splitNl]
  | cons c rest ih =>
    simp only [splitNl]
    by_cases h : c = '\n'
    · simp [h]
    · simp only [if_neg h]
      cases hr : splitNl rest with
      | nil => simp
      | cons a t => simp

theorem joinLines_cons (l : Str) (ls : List Str) (h : ls ≠ []) :
    joinLines (l :: ls) = l ++ '\n' :: joinLines ls := by
  cases ls with
  | nil => exact absurd rfl h
  | cons a t => rfl

theorem joinLines_splitNl (s : Str) : joinLines (splitNl s) = s := by
  induction s with
  | nil => rfl
  | cons c rest ih =>
    simp only [splitNl]
    by_cases h : c = '\n'
    · simp only [if_pos h]
      rw [joinLines_cons _ _ (splitNl_ne_nil rest), ih, h]
      rfl
    · simp only [if_neg h]
      cases hr : splitNl rest with
      | nil => exact absurd hr (splitNl_ne_nil rest)
      | cons a t =>
        cases t with
        | nil =>
          show (c :: a : Str) = c :: rest
          rw [hr] at ih
          exact congrArg (c :: ·) ih
        | cons b t2 =>
          show (c :: a) ++ '\n' :: joinLines (b :: t2) = c :: rest
          rw [hr] at ih
          rw [joinLines_cons _ _ (by simp)] at ih
          exact congrArg (c :: ·) ih

theorem splitNl_noNl (s : Str) : ∀ l ∈ splitNl s, '\n' ∉ l := by
  induction s with
  | nil =>
    intro l hl
    rw [show splitNl [] = [[]] from rfl] at hl
    rcases List.mem_cons.mp hl with h1 | h1
    · subst h1; simp
    · simp at h1
  | cons c rest ih =>
    intro l hl
    by_cases h : c = '\n'
    · rw [show splitNl (c :: rest) = [] :: splitNl rest from by simp [splitNl, h]] at hl
      rcases List.mem_cons.mp hl with h1 | h1
      · subst h1; simp
      · exact ih l h1
    · cases hr : splitNl rest with
      | nil => exact absurd hr (splitNl_ne_nil rest)
      | cons a t =>
        rw [show splitNl (c :: rest) = (c :: a) :: t from by simp [splitNl, h, hr]] at hl
        rcases List.mem_cons.mp hl with h1 | h1
        · subst h1
          intro hmem
          rcases List.mem_cons.mp hmem with hc | hc
          · exact h hc.symm
          · exact ih a (by rw [hr]; exact List.mem_cons_self a t) hc
        · exact ih l (by rw [hr]; exact List.mem_cons_of_mem a h1)

theorem sumLens_nil : sumLens [] = 0 := rfl

theorem sumLens_cons (l : Str) (ls : List Str) :
    sumLens (l :: ls) = ((l.length : Int) + 1) + sumLens ls := by
  simp [sumLens]

theorem sumLens_append (a b : List Str) : sumLens (a ++ b) = sumLens a + sumLens b := by
  simp [sumLens]

theorem sumLens_nonneg (ls : List Str) : 0 ≤ sumLens ls := by
  induction ls with
  | nil => simp [sumLens]
  | cons l t ih => rw [sumLens_cons]; positivity

theorem joinLines_length (ls : List Str) (h : ls ≠ []) :
    ((joinLines ls).length : Int) = sumLens ls - 1 := by
  induction ls with
  | nil => exact absurd rfl h
  | cons l t ih =>
    cases t with
    | nil => simp [joinLines, sumLens]
    | cons a t2 =>
      rw [joinLines_cons _ _ (by simp), sumLens_cons]
      have := ih (by simp)
      simp only [List.length_append, List.length_cons]
      push_cast
      push_cast at this
      omega

theorem totalLen_eq (ls : List Str) (h : ls ≠ []) :
    totalLenZ ls = sumLens ls - 1 :=
  joinLines_length ls h

theorem sumLens_splitNl (s : Str) : sumLens (splitNl s) = (s.length : Int) + 1 := by
  have h1 := joinLines_length (splitNl s) (splitNl_ne_nil s)
  rw [joinLines_splitNl] at h1
  omega

/-! ### Line starts and line lengths -/

theorem lineStartN_zero (lines : List Str) : lineStartN lines 0 = 0 := rfl

theorem lineStartN_nonneg (lines : List Str) (L : Nat) : 0 ≤ lineStartN lines L :=
  sumLens_nonneg _

theorem lineStartN_mono (lines : List Str) {K L : Nat} (h : K ≤ L) :
    lineStartN lines K ≤ lineStartN lines L := by
  unfold lineStartN
  have heq : lines.take L = lines.take K ++ (lines.drop K).take (L - K) := by
    rw [← List.take_add]
    congr 1
    omega
  rw [heq, sumLens_append]
  have := sumLens_nonneg ((lines.drop K).take (L - K))
  omega

theorem lineStartN_length (lines : List Str) :
    lineStartN lines lines.length = sumLens lines := by
  unfold lineStartN
  rw [List.take_length]

theorem lineStartN_of_ge (lines : List Str) {L : Nat} (h : lines.length ≤ L) :
    lineStartN lines L = sumLens lines := by
  unfold lineStartN
  rw [List.take_of_length_le h]

theorem lineAt_toNat (lines : List Str) (i : Int) (h : 0 ≤ i) :
    lineAt lines i = lines.get? i.toNat := by
  simp [lineAt, h]

theorem lineAt_get (lines : List Str) (i : Int) (h0 : 0 ≤ i)
    (h1 : i < (lines.length : Int)) :
    ∃ hlt : i.toNat < lines.length, lineAt lines i = some (lines.get ⟨i.toNat, hlt⟩) := by
  have hlt : i.toNat < lines.length := by omega
  exact ⟨hlt, by rw [lineAt_toNat _ _ h0, List.get?_eq_get hlt]⟩

theorem lineAt_none_iff (lines : List Str) (i : Int) :
    lineAt lines i = none ↔ i < 0 ∨ (lines.length : Int) ≤ i := by
  unfold lineAt
  by_cases h : 0 ≤ i
  · rw [if_pos h, List.get?_eq_none]
    omega
  · rw [if_neg h]
    simp
    omega

theorem lineLenZ_get (lines : List Str) (i : Int) (h0 : 0 ≤ i)
    (h1 : i < (lines.length : Int)) (hlt : i.toNat < lines.length) :
    lineLenZ lines i = ((lines.get ⟨i.toNat, hlt⟩).length : Int) := by
  obtain ⟨hlt2, hat⟩ := lineAt_get lines i h0 h1
  unfold lineLenZ
  rw [hat]
  rfl

theorem lineLenZ_nonneg (lines : List Str) (i : Int) : 0 ≤ lineLenZ lines i := by
  unfold lineLenZ
  positivity

theorem lineStartN_succ (lines : List Str) {L : Nat} (h : L < lines.length) :
    lineStartN lines (L + 1) = lineStartN lines L + lineLenZ lines (L : Int) + 1 := by
  unfold lineStartN
  rw [List.take_succ, sumLens_append]
  have hg : lines[L]? = some (lines.get ⟨L, h⟩) := by
    rw [← List.get?_eq_getElem?, List.get?_eq_get h]
  rw [hg]
  have hlen : lineLenZ lines (L : Int) = ((lines.get ⟨L, h⟩).length : Int) := by
    unfold lineLenZ
    rw [lineAt_toNat _ _ (by positivity)]
    have ht : ((L : Int)).toNat = L := by omega
    rw [ht, List.get?_eq_get h]
    rfl
  rw [hlen]
  simp only [sumLens, List.map_cons, List.map_nil, List.sum_cons, List.sum_nil]
  have hgl : lines[L] = lines.get ⟨L, h⟩ := rfl
  simp [Option.toList]
  ring

theorem lineStartZ_of_nat (lines : List Str) (L : Nat) :
    lineStartZ lines (L : Int) = lineStartN lines L := by
  simp [lineStartZ]

theorem lineStartZ_succ (lines : List Str) {L : Int} (h0 : 0 ≤ L)
    (h : L < (lines.length : Int)) :
    lineStartZ lines (L + 1) = lineStartZ lines L + lineLenZ lines L + 1 := by
  unfold lineStartZ
  have h1 : (L + 1).toNat = L.toNat + 1 := by omega
  rw [h1]
  have h2 : L.toNat < lines.length := by omega
  have h3 := lineStartN_succ lines h2
  rw [h3]
  have h4 : ((L.toNat : Int)) = L := Int.toNat_of_nonneg h0
  rw [h4]

theorem lineStartZ_nonneg (lines : List Str) (L : Int) : 0 ≤ lineStartZ lines L :=
  lineStartN_nonneg _ _

theorem lineStartZ_mono (lines : List Str) {K L : Int} (h : K ≤ L) :
    lineStartZ lines K ≤ lineStartZ lines L :=
  lineStartN_mono lines (by omega)

theorem lineStartZ_span_le (lines : List Str) {L : Int} (h0 : 0 ≤ L)
    (h : L < (lines.length : Int)) :
    lineStartZ lines L + lineLenZ lines L + 1 ≤ sumLens lines := by
  rw [← lineStartZ_succ lines h0 h]
  calc lineStartZ lines (L + 1) = lineStartN lines (L + 1).toNat := rfl
    _ ≤ lineStartN lines lines.length := lineStartN_mono lines (by omega)
    _ = sumLens lines := lineStartN_length lines

/-! ### Block rounding -/

theorem rnd_le (i : Int) : roundToLowerBlockSize i ≤ i :=
  Int.ediv_mul_le i (by norm_num)

theorem rnd_gt (i : Int) : i - 10 < roundToLowerBlockSize i := by
  have h1 : i % 10 = i - 10 * (i / 10) := Int.emod_def i 10
  have h2 : i % 10 < 10 := Int.emod_lt_of_pos i (by norm_num)
  unfold roundToLowerBlockSize
  have h3 : i.ediv 10 * 10 = 10 * (i / 10) := by
    show i / 10 * 10 = 10 * (i / 10)
    ring
  omega

theorem rnd_dvd (i : Int) : 10 ∣ roundToLowerBlockSize i :=
  ⟨i.ediv 10, by unfold roundToLowerBlockSize; ring⟩

theorem rnd_mono {a b : Int} (h : a ≤ b) :
    roundToLowerBlockSize a ≤ roundToLowerBlockSize b :=
  mul_le_mul_of_nonneg_right (Int.ediv_le_ediv (by norm_num) h) (by norm_num)

theorem rnd_eq_of_dvd {i : Int} (h : 10 ∣ i) : roundToLowerBlockSize i = i :=
  Int.ediv_mul_cancel h

theorem dvd_le_rnd {c a : Int} (hd : 10 ∣ c) (h : c ≤ a) :
    c ≤ roundToLowerBlockSize a := by
  calc c = roundToLowerBlockSize c := (rnd_eq_of_dvd hd).symm
    _ ≤ roundToLowerBlockSize a := rnd_mono h

theorem rnd_nonneg {i : Int} (h : 0 ≤ i) : 0 ≤ roundToLowerBlockSize i :=
  dvd_le_rnd (by norm_num) h

/-! ### Validation -/

theorem checkTextPosition_ok_iff (lines : List Str) (zp : ITextPosition) :
    TextStore.checkTextPosition lines zp = .ok () ↔ ValidZP lines zp := by
  unfold TextStore.checkTextPosition ValidZP
  constructor
  · intro h
    split at h
    · simp at h
    · split at h
      · simp at h
      · rename_i l hat
        split at h
        · simp at h
        · split at h
          · simp at h
          · rename_i h1 h2 h3
            push_neg at h3
            have hne : lineAt lines zp.line ≠ none := by rw [hat]; simp
            rw [ne_eq, lineAt_none_iff] at hne
            push_neg at hne
            refine ⟨h3.2, by omega, h3.1, ?_⟩
            obtain ⟨hlt, hg⟩ := lineAt_get lines zp.line (by omega) (by omega)
            rw [hg] at hat
            cases hat
            rw [lineLenZ_get lines zp.line (by omega) (by omega) hlt]
            omega
  · rintro ⟨hl0, hl1, hc0, hc1⟩
    rw [if_neg (by omega)]
    obtain ⟨hlt, hg⟩ := lineAt_get lines zp.line hl0 hl1
    split
    · rename_i heq
      rw [hg] at heq
      exact Option.noConfusion heq
    · rename_i l heq
      rw [hg] at heq
      injection heq with heq2
      subst heq2
      rw [lineLenZ_get lines zp.line hl0 hl1 hlt] at hc1
      rw [if_neg (by omega), if_neg (by omega)]

/-! ### Truthiness -/

theorem truthyInt_some {o : Option Int} {v : Int} (h : truthyInt o = some v) :
    o = some v ∧ v ≠ 0 := by
  cases o with
  | none => simp [truthyInt] at h
  | some w =>
    by_cases hw : w = 0
    · simp [truthyInt, hw] at h
    · simp [truthyInt, hw] at h
      exact ⟨by rw [h], h ▸ hw⟩

/-! ### Soundness of the two anchor searches: any result they produce is a
genuinely cached, truthy entry at or below the search bound. -/

theorem lineSearch_sound (vc : VCache) (target : Int) :
    ∀ (fuel : Nat) (s : Int) (e : Dy), 0 ≤ s →
    s * 2 ^ e.exp ≤ e.num → e.num ≤ target * 2 ^ e.exp →
    ∀ L v, findHighestCachedLineToIndex vc fuel s e = some (L, v) →
    vc.arr L = some v ∧ v ≠ 0 ∧ 0 ≤ L ∧ L ≤ target := by
  intro fuel
  induction fuel with
  | zero =>
    intro s e hs0 hse het L v h
    simp only [findHighestCachedLineToIndex] at h
    cases ht : truthyInt (vc.get s) with
    | none => rw [ht] at h; cases h
    | some w =>
      rw [ht] at h
      injection h with h2
      cases h2
      obtain ⟨ha, hnz⟩ := truthyInt_some ht
      have hA : (0 : Int) < 2 ^ e.exp := by positivity
      have hle : s ≤ target := le_of_mul_le_mul_right (le_trans hse het) hA
      exact ⟨ha, hnz, hs0, hle⟩
  | succ n ih =>
    intro s e hs0 hse het L v h
    simp only [findHighestCachedLineToIndex] at h
    have hA : (0 : Int) < 2 ^ e.exp := by positivity
    have hst : s ≤ target := le_of_mul_le_mul_right (le_trans hse het) hA
    have hsA : s * 2 ^ e.exp ≤ target * 2 ^ e.exp :=
      mul_le_mul_of_nonneg_right hst (le_of_lt hA)
    have hmidnum : (Dy.midWith s e).num = s * 2 ^ e.exp + e.num := rfl
    have hmidexp : (Dy.midWith s e).exp = e.exp + 1 := rfl
    have hps : (2 : Int) ^ (e.exp + 1) = 2 ^ e.exp * 2 := pow_succ 2 e.exp
    split at h
    · cases h
    · split at h
      · -- some arm of the truthiness match
        rename_i ret heq
        -- the inner lookup can only be truthy if the midpoint is an integer
        cases hti : (Dy.midWith s e).toInt? with
        | none => rw [hti] at heq; simp [truthyInt] at heq
        | some m =>
          rw [hti] at heq
          obtain ⟨ha, hnz⟩ := truthyInt_some heq
          have hm : m * (2 ^ e.exp * 2) = s * 2 ^ e.exp + e.num := by
            unfold Dy.toInt? at hti
            by_cases hd : (Dy.midWith s e).num % (2 ^ (Dy.midWith s e).exp : Int) = 0
            · rw [if_pos hd] at hti
              injection hti with hti2
              have hdvd : (2 ^ (Dy.midWith s e).exp : Int) ∣ (Dy.midWith s e).num :=
                Int.dvd_of_emod_eq_zero hd
              have hc := Int.ediv_mul_cancel hdvd
              rw [← hti2]
              rw [hmidexp, hps] at hc ⊢
              rw [hc, hmidnum]
            · rw [if_neg hd] at hti; cases hti
          have hm0 : 0 ≤ m := by nlinarith [hse]
          have hmt : m ≤ target := by nlinarith [het]
          split at h
          · -- recurse upward on (m, e)
            simp only [hti, Option.getD_some] at h
            refine ih m e hm0 (by nlinarith [hse]) het L v h
          · simp only [hti, Option.getD_some] at h
            injection h with h2
            cases h2
            exact ⟨ha, hnz, hm0, hmt⟩
      · -- none arm: recurse downward on (s, middle)
        rename_i heq
        split at h
        · refine ih s (Dy.midWith s e) hs0 ?_ ?_ L v h
          · rw [hmidnum, hmidexp, hps]; nlinarith [hse]
          · rw [hmidnum, hmidexp, hps]; nlinarith [het]
        · cases h

theorem blockSearch_none_of_le (bc : SCache) (n : Nat) {e : Int} (he : e ≤ 0) :
    findHighestCachedIndexToPos bc (n + 1) 10 e = none := by
  simp only [findHighestCachedIndexToPos]
  have hm0 : (e - 10) / 2 + 10 ≤ 5 := by omega
  set m0 : Int := (e - 10) / 2 + 10 with hm0def
  by_cases hd : m0 % 10 ≠ 0
  · rw [if_pos hd]
    have : roundToLowerBlockSize m0 ≤ m0 := rnd_le m0
    rw [if_pos (by unfold DEFAULT_BLOCK_SIZE; omega)]
  · rw [if_neg hd]
    push_neg at hd
    have hdvd : (10 : Int) ∣ m0 := Int.dvd_of_emod_eq_zero hd
    have : m0 ≤ 0 := by omega
    rw [if_pos (by unfold DEFAULT_BLOCK_SIZE; omega)]

theorem blockSearch_sound (bc : SCache) :
    ∀ (fuel : Nat) (s e : Int), 10 ≤ s → 10 ∣ s → 10 ∣ e → s ≤ e →
    ∀ m p, findHighestCachedIndexToPos bc fuel s e = some (m, p) →
    bc.arr (m.ediv 10) = some p ∧ 10 ∣ m ∧ 10 ≤ m ∧ m ≤ e := by
  intro fuel
  induction fuel with
  | zero => intro s e _ _ _ _ m p h; cases h
  | succ n ih =>
    intro s e hs10 hsd hed hse m p h
    simp only [findHighestCachedIndexToPos] at h
    set m0 : Int := (e - s) / 2 + s with hm0def
    have hm0s : s ≤ m0 := by
      have : (0 : Int) ≤ (e - s) / 2 := Int.ediv_nonneg (by omega) (by norm_num)
      omega
    have hm0e : m0 ≤ e := by
      have : (e - s) / 2 ≤ e - s := Int.ediv_le_self _ (by omega)
      omega
    -- the rounded midpoint
    set mid : Int := if m0 % 10 ≠ 0 then roundToLowerBlockSize m0 else m0 with hmiddef
    have hmidd : 10 ∣ mid := by
      rw [hmiddef]
      by_cases hd : m0 % 10 ≠ 0
      · rw [if_pos hd]; exact rnd_dvd m0
      · rw [if_neg hd]; push_neg at hd; exact Int.dvd_of_emod_eq_zero hd
    have hmids : s ≤ mid := by
      rw [hmiddef]
      by_cases hd : m0 % 10 ≠ 0
      · rw [if_pos hd]; exact dvd_le_rnd hsd hm0s
      · rw [if_neg hd]; exact hm0s
    have hmide : mid ≤ e := by
      rw [hmiddef]
      by_cases hd : m0 % 10 ≠ 0
      · rw [if_pos hd]; exact le_trans (rnd_le m0) hm0e
      · rw [if_neg hd]; exact hm0e
    by_cases hlt : mid < DEFAULT_BLOCK_SIZE
    · rw [if_pos hlt] at h; cases h
    · rw [if_neg hlt] at h
      unfold DEFAULT_BLOCK_SIZE at hlt
      push_neg at hlt
      split at h
      · rename_i ret heq
        by_cases hcond : s ≠ mid ∧ e ≠ mid
        · rw [if_pos hcond] at h
          exact ih mid e hlt hmidd hed hmide m p h
        · rw [if_neg hcond] at h
          injection h with h2
          injection h2 with ha hb
          subst ha
          subst hb
          exact ⟨heq, hmidd, hlt, hmide⟩
      · rename_i heq
        by_cases hcond : s ≠ mid
        · rw [if_pos hcond] at h
          obtain ⟨ha, hd2, h10, hle⟩ := ih s mid hs10 hsd hmidd hmids m p h
          exact ⟨ha, hd2, h10, le_trans hle hmide⟩
        · rw [if_neg hcond] at h; cases h

/-! ### The position→index walk -/

theorem posWalk_spec (lines : List Str) :
    ∀ (n : Nat) (vc : VCache) (cur offset target : Int),
    0 ≤ cur → cur ≤ target → target < (lines.length : Int) →
    n = (target - cur).toNat + 1 →
    (TextStore.posWalk lines n vc cur offset target).1
      = offset + (lineStartZ lines target - lineStartZ lines cur) ∧
    ∀ k, ((TextStore.posWalk lines n vc cur offset target).2).arr k
      = if cur ≤ k ∧ k ≤ target
          then some (offset + (lineStartZ lines k - lineStartZ lines cur) + 1)
          else vc.arr k := by
  intro n
  induction n with
  | zero => intro vc cur offset target h0 h1 h2 hn; omega
  | succ n ih =>
    intro vc cur offset target h0 h1 h2 hn
    simp only [TextStore.posWalk]
    by_cases hct : cur = target
    · subst hct
      rw [if_pos rfl]
      constructor
      · simp
      · intro k
        simp only [VCache.set]
        by_cases hk : k = cur
        · rw [if_pos hk, if_pos (by omega)]
          subst hk
          simp
        · rw [if_neg hk, if_neg (by omega)]
    · rw [if_neg hct]
      have hlt : cur < target := lt_of_le_of_ne h1 hct
      have hn2 : n = (target - (cur + 1)).toNat + 1 := by omega
      have hcl : cur < (lines.length : Int) := by omega
      have hsucc := lineStartZ_succ lines h0 hcl
      obtain ⟨ihv, ihc⟩ := ih (vc.set cur (offset + 1)) (cur + 1)
        (offset + lineLenZ lines cur + 1) target (by omega) (by omega) h2 hn2
      constructor
      · rw [ihv, hsucc]
        ring
      · intro k
        rw [ihc k]
        by_cases hk1 : cur + 1 ≤ k ∧ k ≤ target
        · rw [if_pos hk1, if_pos (by omega)]
          rw [hsucc]
          congr 1
          ring
        · rw [if_neg hk1]
          simp only [VCache.set]
          by_cases hk2 : k = cur
          · subst hk2
            rw [if_pos rfl, if_pos (by omega)]
            simp
          · rw [if_neg hk2, if_neg (by omega)]

/-- Any anchor `lineAnchor` selects for a valid target over a sound cache is a
line at or below the target whose value is the line's start plus δ ∈ {0, 1}
(δ = 0 for the synthetic anchor and entries written downstream of one). -/
theorem lineAnchor_ok (lines : List Str) (vc : VCache) (target : Int)
    (hvc : ∀ L v, vc.arr L = some v → LineEntrySound lines L v)
    (ht0 : 0 ≤ target) (ht1 : target < (lines.length : Int)) :
    ∀ N w, TextStore.lineAnchor vc target = (N, w) →
    0 ≤ N ∧ N ≤ target ∧ N < (lines.length : Int) ∧
      ∃ δ : Int, (δ = 0 ∨ δ = 1) ∧ w = lineStartZ lines N + δ := by
  intro N w h
  unfold TextStore.lineAnchor at h
  cases ht1p : truthyInt (vc.get target) with
  | some v =>
    rw [ht1p] at h
    injection h with ha hb
    subst ha; subst hb
    obtain ⟨harr, hnz⟩ := truthyInt_some ht1p
    obtain ⟨e0, e1, he⟩ := hvc _ _ harr
    rcases he with he | he
    · exact ⟨e0, le_refl _, e1, 0, Or.inl rfl, by omega⟩
    · exact ⟨e0, le_refl _, e1, 1, Or.inr rfl, by omega⟩
  | none =>
    rw [ht1p] at h
    cases ht2p : truthyInt (vc.get (target - 1)) with
    | some v =>
      rw [ht2p] at h
      injection h with ha hb
      subst ha; subst hb
      obtain ⟨harr, hnz⟩ := truthyInt_some ht2p
      obtain ⟨e0, e1, he⟩ := hvc _ _ harr
      rcases he with he | he
      · exact ⟨e0, by omega, e1, 0, Or.inl rfl, by omega⟩
      · exact ⟨e0, by omega, e1, 1, Or.inr rfl, by omega⟩
    | none =>
      rw [ht2p] at h
      cases hf : findHighestCachedLineToIndex vc lineSearchFuel 0 (Dy.ofInt target) with
      | some r =>
        rw [hf] at h
        have h2 : r = (N, w) := h
        subst h2
        obtain ⟨harr, hnz, hr0, hrt⟩ := lineSearch_sound vc target lineSearchFuel 0
          (Dy.ofInt target) (le_refl 0)
          (by simp only [Dy.ofInt]; omega) (by simp only [Dy.ofInt]; omega) N w hf
        obtain ⟨e0, e1, he⟩ := hvc _ _ harr
        rcases he with he | he
        · exact ⟨hr0, hrt, e1, 0, Or.inl rfl, by omega⟩
        · exact ⟨hr0, hrt, e1, 1, Or.inr rfl, by omega⟩
      | none =>
        rw [hf] at h
        injection h with ha hb
        subst ha; subst hb
        refine ⟨le_refl 0, ht0, by omega, 0, Or.inl rfl, ?_⟩
        rw [show lineStartZ lines 0 = 0 from rfl]
        omega

theorem zeroBasedPosToIndex_eq (lines : List Str) (vc : VCache) (zp : ITextPosition)
    {N w : Int} (hanch : TextStore.lineAnchor vc zp.line = (N, w)) (hle : N ≤ zp.line) :
    TextStore.zeroBasedPosToIndex lines vc zp =
      ((TextStore.posWalk lines ((zp.line - N).toNat + 1) vc N (w - 1) zp.line).1 + zp.col,
       (TextStore.posWalk lines ((zp.line - N).toNat + 1) vc N (w - 1) zp.line).2) := by
  unfold TextStore.zeroBasedPosToIndex
  rw [hanch]
  simp [hle]

/-- Characterisation of `zeroBasedPosToIndex` on a sound cache and a valid
zero-based position: it returns `lineStart + col + δ - 1` for some δ ∈ {0, 1}
(δ = 0 exactly when the anchor decoded one short: the cold-start bug), and
every entry of the updated cache is again sound. -/
theorem zeroBasedPosToIndex_spec (lines : List Str) (vc : VCache) (zp : ITextPosition)
    (hvc : ∀ L v, vc.arr L = some v → LineEntrySound lines L v)
    (hzp : ValidZP lines zp) :
    ∃ δ : Int, (δ = 0 ∨ δ = 1) ∧
      (TextStore.zeroBasedPosToIndex lines vc zp).1
        = lineStartZ lines zp.line + zp.col + δ - 1 ∧
      (∀ L v, ((TextStore.zeroBasedPosToIndex lines vc zp).2).arr L = some v →
        LineEntrySound lines L v) := by
  obtain ⟨hl0, hl1, hc0, hc1⟩ := hzp
  cases hanch : TextStore.lineAnchor vc zp.line with
  | mk N w =>
    obtain ⟨hn0, hnt, hnl, δ, hδ, hw⟩ :=
      lineAnchor_ok lines vc zp.line hvc hl0 hl1 N w hanch
    rw [zeroBasedPosToIndex_eq lines vc zp hanch hnt]
    obtain ⟨hval, hcac⟩ := posWalk_spec lines ((zp.line - N).toNat + 1) vc N (w - 1)
      zp.line hn0 hnt hl1 rfl
    refine ⟨δ, hδ, ?_, ?_⟩
    · simp only [hval]
      omega
    · intro L v hLv
      simp only [hcac L] at hLv
      by_cases hin : N ≤ L ∧ L ≤ zp.line
      · rw [if_pos hin] at hLv
        injection hLv with hv
        refine ⟨by omega, by omega, ?_⟩
        rcases hδ with h0 | h1
        · left; omega
        · right; omega
      · rw [if_neg hin] at hLv
        exact hvc L v hLv

theorem zeroBasedPosToIndex_exact (lines : List Str) (vc : VCache) (zp : ITextPosition)
    (hl0 : 0 ≤ zp.line) (hl1 : zp.line < (lines.length : Int))
    (hvc : vc.arr zp.line = some (lineStartZ lines zp.line + 1)) :
    (TextStore.zeroBasedPosToIndex lines vc zp).1 = lineStartZ lines zp.line + zp.col := by
  have hanch : TextStore.lineAnchor vc zp.line = (zp.line, lineStartZ lines zp.line + 1) := by
    unfold TextStore.lineAnchor
    have ht : truthyInt (vc.get zp.line) = some (lineStartZ lines zp.line + 1) := by
      show truthyInt (vc.arr zp.line) = _
      rw [hvc]
      simp only [truthyInt]
      rw [if_neg (by have := lineStartZ_nonneg lines zp.line; omega)]
    rw [ht]
  rw [zeroBasedPosToIndex_eq lines vc zp hanch (le_refl _)]
  obtain ⟨hval, _⟩ := posWalk_spec lines ((zp.line - zp.line).toNat + 1) vc zp.line
    (lineStartZ lines zp.line + 1 - 1) zp.line hl0 (le_refl _) hl1 rfl
  rw [hval]
  omega

/-! ### The index→position walk -/

theorem populateBlocks_spec (line stepped : Int) :
    ∀ (n : Nat) (bc : SCache) (closest : Int), 10 ∣ closest →
    (TextStore.populateBlocks line stepped n bc closest).2 = closest + 10 * n ∧
    ∀ b q, ((TextStore.populateBlocks line stepped n bc closest).1).arr b = some q →
      bc.arr b = some q ∨
      (closest < 10 * b ∧ 10 * b ≤ closest + 10 * n ∧ q = ⟨line, 10 * b - stepped⟩) := by
  intro n
  induction n with
  | zero =>
    intro bc closest hd
    simp only [TextStore.populateBlocks]
    exact ⟨by omega, fun b q h => Or.inl h⟩
  | succ n ih =>
    intro bc closest hd
    simp only [TextStore.populateBlocks]
    have hd1 : (10 : Int) ∣ closest + 10 := by omega
    have hediv : (closest + 10).ediv 10 * 10 = closest + 10 := Int.ediv_mul_cancel hd1
    by_cases hg : (bc.get (closest + 10)).isSome
    · rw [if_pos hg]
      obtain ⟨h1, h2⟩ := ih bc (closest + 10) hd1
      refine ⟨by rw [h1]; push_cast; ring, fun b q h => ?_⟩
      rcases h2 b q h with h3 | h3
      · exact Or.inl h3
      · right
        refine ⟨by omega, by push_cast; omega, h3.2.2⟩
    · rw [if_neg hg]
      obtain ⟨h1, h2⟩ := ih (bc.set (closest + 10) ⟨line, closest + 10 - stepped⟩)
        (closest + 10) hd1
      refine ⟨by rw [h1]; push_cast; ring, fun b q h => ?_⟩
      rcases h2 b q h with h3 | h3
      · -- the entry comes from the one set made at `closest + 10`, or from `bc`
        simp only [SCache.set] at h3
        by_cases hb : b = (closest + 10).ediv 10
        · rw [if_pos hb] at h3
          injection h3 with h4
          right
          have h10b : 10 * b = closest + 10 := by
            rw [hb]
            omega
          refine ⟨by omega, by push_cast; omega, ?_⟩
          rw [← h4, h10b]
        · rw [if_neg hb] at h3
          exact Or.inl h3
      · right
        refine ⟨by omega, by push_cast; omega, h3.2.2⟩

theorem idxWalk_spec (lines : List Str) (index : Int) :
    ∀ (rem : List Str) (ln closest stepped : Int) (bc : SCache) (vc : VCache),
    0 ≤ ln → rem = lines.drop ln.toNat →
    stepped = lineStartZ lines ln →
    stepped ≤ index → index ≤ sumLens lines - 1 →
    10 ∣ closest → stepped - 10 < closest →
    closest ≤ stepped + lineLenZ lines ln + 1 →
    (∀ b q, bc.arr b = some q → BlockEntrySound lines b q) →
    (∀ L v, vc.arr L = some v → LineEntrySound lines L v) →
    IdealAt lines index (TextStore.idxWalk index rem ln closest stepped bc vc).1
      (TextStore.idxWalk index rem ln closest stepped bc vc).2.1 ∧
    (∀ b q, ((TextStore.idxWalk index rem ln closest stepped bc vc).2.2.1).arr b = some q →
      BlockEntrySound lines b q) ∧
    (∀ L v, ((TextStore.idxWalk index rem ln closest stepped bc vc).2.2.2).arr L = some v →
      LineEntrySound lines L v) ∧
    ((TextStore.idxWalk index rem ln closest stepped bc vc).2.2.2).arr
        (TextStore.idxWalk index rem ln closest stepped bc vc).1
      = some (lineStartZ lines (TextStore.idxWalk index rem ln closest stepped bc vc).1 + 1) := by
  intro rem
  induction rem with
  | nil =>
    intro ln closest stepped bc vc h0 hrem hst hsi hub hd hlo hhi hbc hvc
    -- the loop can only run out of lines when `index` is past the whole
    -- document, which the bound `index ≤ sumLens - 1` excludes
    exfalso
    have hlen : lines.length ≤ ln.toNat := by
      by_contra hc
      push_neg at hc
      have := List.drop_eq_getElem_cons hc
      rw [← hrem] at this
      cases this
    have : lineStartZ lines ln = sumLens lines := lineStartN_of_ge lines hlen
    omega
  | cons cLine rest ih =>
    intro ln closest stepped bc vc h0 hrem hst hsi hub hd hlo hhi hbc hvc
    have hlt : ln.toNat < lines.length := by
      by_contra hc
      push_neg at hc
      rw [List.drop_eq_nil_of_le hc] at hrem
      cases hrem
    have hlnlt : ln < (lines.length : Int) := by omega
    have hgetc : lines[ln.toNat] = cLine := by
      have h2 := List.drop_eq_getElem_cons hlt
      rw [← hrem] at h2
      injection h2 with ha hb
      exact ha.symm
    have hrest : rest = lines.drop (ln.toNat + 1) :=
      congrArg List.tail (hrem.trans (List.drop_eq_getElem_cons hlt))
    have hlen : lineLenZ lines ln = (cLine.length : Int) := by
      have hx : lines.get ⟨ln.toNat, hlt⟩ = cLine := by
        rw [← hgetc]
        exact List.get_eq_getElem lines ⟨ln.toNat, hlt⟩
      rw [lineLenZ_get lines ln h0 hlnlt hlt, hx]
    have hst0 : 0 ≤ stepped := hst ▸ lineStartZ_nonneg lines ln
    have hcl0 : 0 ≤ closest := by
      rcases hd with ⟨k, hk⟩
      omega
    -- the `after` of this cycle and its rounded stop
    have hafter : stepped + ((cLine.length : Int) + 1) = lineStartZ lines (ln + 1) := by
      rw [lineStartZ_succ lines h0 hlnlt, hlen, hst]
      ring
    have hstop_le : closest ≤ roundToLowerBlockSize (stepped + ((cLine.length : Int) + 1)) :=
      dvd_le_rnd hd (by omega)
    have hstop_dvd : 10 ∣ roundToLowerBlockSize (stepped + ((cLine.length : Int) + 1)) :=
      rnd_dvd _
    have hstop_le2 : roundToLowerBlockSize (stepped + ((cLine.length : Int) + 1))
        ≤ stepped + (cLine.length : Int) + 1 := by
      have := rnd_le (stepped + ((cLine.length : Int) + 1))
      omega
    -- the populate count is exact
    have hcount : 10 * (((roundToLowerBlockSize (stepped + ((cLine.length : Int) + 1))
        - closest).ediv 10 : Int).toNat : Int)
        = roundToLowerBlockSize (stepped + ((cLine.length : Int) + 1)) - closest := by
      have hdd : (10 : Int) ∣ roundToLowerBlockSize (stepped + ((cLine.length : Int) + 1))
          - closest := by omega
      have h1 : (roundToLowerBlockSize (stepped + ((cLine.length : Int) + 1))
            - closest).ediv 10 * 10
          = roundToLowerBlockSize (stepped + ((cLine.length : Int) + 1)) - closest :=
        Int.ediv_mul_cancel hdd
      have h2 : (0 : Int) ≤ (roundToLowerBlockSize (stepped + ((cLine.length : Int) + 1))
          - closest).ediv 10 := Int.ediv_nonneg (by omega) (by norm_num)
      omega
    simp only [TextStore.idxWalk]
    obtain ⟨hpop2, hpop1⟩ := populateBlocks_spec ln stepped
      (((roundToLowerBlockSize (stepped + ((cLine.length : Int) + 1)) - closest).ediv 10).toNat)
      bc closest hd
    -- soundness of the caches after this cycle
    have hbc1 : ∀ b q,
        ((TextStore.populateBlocks ln stepped
          (((roundToLowerBlockSize (stepped + ((cLine.length : Int) + 1))
            - closest).ediv 10).toNat) bc closest).1).arr b = some q →
        BlockEntrySound lines b q := by
      intro b q h
      rcases hpop1 b q h with h1 | ⟨h1, h2, h3⟩
      · exact hbc b q h1
      · subst h3
        rw [hcount] at h2
        refine ⟨by omega, h0, hlnlt, by simp; omega, by simp [hlen]; omega, by simp; omega⟩
    have hvc1 : ∀ L v, ((vc.set ln (stepped + 1)).arr L) = some v →
        LineEntrySound lines L v := by
      intro L v h
      simp only [VCache.set] at h
      by_cases hL : L = ln
      · rw [if_pos hL] at h
        injection h with h2
        subst hL
        exact ⟨h0, hlnlt, Or.inr (by omega)⟩
      · rw [if_neg hL] at h
        exact hvc L v h
    by_cases hbreak : stepped + ((cLine.length : Int) + 1) > index
    · rw [if_pos hbreak]
      refine ⟨?_, hbc1, hvc1, ?_⟩
      · show IdealAt lines index ln (index - stepped)
        exact ⟨h0, hlnlt, by omega, by omega, by omega⟩
      · show (vc.set ln (stepped + 1)).arr ln = some (lineStartZ lines ln + 1)
        simp only [VCache.set, if_pos rfl]
        exact congrArg some (by omega)
    · rw [if_neg hbreak]
      push_neg at hbreak
      exact ih (ln + 1)
        (TextStore.populateBlocks ln stepped
          (((roundToLowerBlockSize (stepped + ((cLine.length : Int) + 1))
            - closest).ediv 10).toNat) bc closest).2
        (stepped + ((cLine.length : Int) + 1))
        _ _ (by omega)
        (by rw [hrest]; congr 1; omega)
        (by rw [hafter])
        hbreak hub
        (by rw [hpop2]; omega)
        (by rw [hpop2, hcount]
            have hg := rnd_gt (stepped + ((cLine.length : Int) + 1))
            omega)
        (by rw [hpop2, hcount]
            have hl1 : 0 ≤ lineLenZ lines (ln + 1) := lineLenZ_nonneg lines (ln + 1)
            omega)
        hbc1 hvc1

/-! ### The index→position anchor and operation -/

theorem indexAnchor_ok (lines : List Str) (bc : SCache) (closest0 : Int)
    (hbc : ∀ b q, bc.arr b = some q → BlockEntrySound lines b q)
    (hne : lines ≠ []) (hd : 10 ∣ closest0) :
    ∀ A ap, TextStore.indexAnchor bc closest0 = (A, ap) →
    10 ∣ A ∧ 0 ≤ A ∧ A ≤ max closest0 0 ∧
    0 ≤ ap.line ∧ ap.line < (lines.length : Int) ∧ 0 ≤ ap.col ∧
    ap.col ≤ lineLenZ lines ap.line + 1 ∧ lineStartZ lines ap.line + ap.col = A := by
  intro A ap h
  have hlen1 : 0 < lines.length := List.length_pos.mpr hne
  unfold TextStore.indexAnchor at h
  unfold DEFAULT_BLOCK_SIZE at h
  have hcancel : closest0.ediv 10 * 10 = closest0 := Int.ediv_mul_cancel hd
  cases hg1 : bc.get closest0 with
  | some p =>
    rw [hg1] at h
    injection h with ha hb
    subst ha; subst hb
    obtain ⟨hb1, hb2, hb3, hb4, hb5, hb6⟩ := hbc _ _ hg1
    refine ⟨hd, by omega, by omega, hb2, hb3, hb4, hb5, by omega⟩
  | none =>
    rw [hg1] at h
    have hd2 : (10 : Int) ∣ closest0 - 10 := by omega
    have hcancel2 : (closest0 - 10).ediv 10 * 10 = closest0 - 10 := Int.ediv_mul_cancel hd2
    cases hg2 : bc.get (closest0 - 10) with
    | some p =>
      rw [hg2] at h
      injection h with ha hb
      subst ha; subst hb
      obtain ⟨hb1, hb2, hb3, hb4, hb5, hb6⟩ := hbc _ _ hg2
      refine ⟨hd2, by omega, by omega, hb2, hb3, hb4, hb5, by omega⟩
    | none =>
      rw [hg2] at h
      by_cases hcl : closest0 ≤ 0
      · have hnone : findHighestCachedIndexToPos bc blockSearchFuel
            10 closest0 = none := blockSearch_none_of_le bc 299 hcl
        rw [hnone] at h
        injection h with ha hb
        subst ha; subst hb
        refine ⟨by norm_num, le_refl 0, by omega, le_refl 0, ?_, le_refl 0, ?_, ?_⟩
        · show (0 : Int) < (lines.length : Int)
          exact_mod_cast hlen1
        · show (0 : Int) ≤ lineLenZ lines 0 + 1
          have := lineLenZ_nonneg lines 0
          omega
        · show lineStartZ lines 0 + 0 = 0
          rw [show lineStartZ lines 0 = 0 from rfl]
          omega
      · push_neg at hcl
        have hcl10 : 10 ≤ closest0 := by omega
        cases hf : findHighestCachedIndexToPos bc blockSearchFuel
            10 closest0 with
        | some r =>
          rw [hf] at h
          have h2 : r = (A, ap) := h
          subst h2
          obtain ⟨ha1, ha2, ha3, ha4⟩ := blockSearch_sound bc blockSearchFuel 10 closest0
            (le_refl 10) (by norm_num) hd hcl10 A ap hf
          obtain ⟨hb1, hb2, hb3, hb4, hb5, hb6⟩ := hbc _ _ ha1
          have hcancel3 : A.ediv 10 * 10 = A := Int.ediv_mul_cancel ha2
          refine ⟨ha2, by omega, by omega, hb2, hb3, hb4, hb5, by omega⟩
        | none =>
          rw [hf] at h
          injection h with ha hb
          subst ha; subst hb
          refine ⟨by norm_num, le_refl 0, by omega, le_refl 0, ?_, le_refl 0, ?_, ?_⟩
          · show (0 : Int) < (lines.length : Int)
            exact_mod_cast hlen1
          · show (0 : Int) ≤ lineLenZ lines 0 + 1
            have := lineLenZ_nonneg lines 0
            omega
          · show lineStartZ lines 0 + 0 = 0
            rw [show lineStartZ lines 0 = 0 from rfl]
            omega

theorem indexAnchor_neg (bc : SCache) (closest0 : Int)
    (hbc : ∀ b q, bc.arr b = some q → 1 ≤ b)
    (hneg : closest0 ≤ -10) :
    TextStore.indexAnchor bc closest0 = (0, ⟨0, 0⟩) := by
  unfold TextStore.indexAnchor
  unfold DEFAULT_BLOCK_SIZE
  have hg1 : bc.get closest0 = none := by
    unfold SCache.get
    cases hx : bc.arr (closest0.ediv 10) with
    | none => rfl
    | some q =>
      have h1 := hbc _ _ hx
      have h2 : closest0.ediv 10 ≤ -1 := by
        have := Int.ediv_le_ediv (by norm_num : (0:Int) < 10) hneg
        simpa using this
      omega
  have hg2 : bc.get (closest0 - 10) = none := by
    unfold SCache.get
    cases hx : bc.arr ((closest0 - 10).ediv 10) with
    | none => rfl
    | some q =>
      have h1 := hbc _ _ hx
      have h2 : (closest0 - 10).ediv 10 ≤ -1 := by
        have := Int.ediv_le_ediv (by norm_num : (0:Int) < 10) (show closest0 - 10 ≤ -10 by omega)
        simpa using this
      omega
  have hn : findHighestCachedIndexToPos bc blockSearchFuel 10 closest0 = none :=
    blockSearch_none_of_le bc 299 (by omega)
  rw [hg1, hg2, hn]

theorem indexToPosition_eq (s : TextStore) (i : Int) (hle : ¬ i > s.size)
    {A : Int} {ap : ITextPosition}
    (hanch : TextStore.indexAnchor s.indexToPosCache (roundToLowerBlockSize i) = (A, ap)) :
    TextStore.indexToPosition s i =
      .ok (⟨(TextStore.idxWalk i (s.lines.drop ap.line.toNat) ap.line A (A - ap.col)
              s.indexToPosCache s.lineToIndexCache).1 + 1,
            (TextStore.idxWalk i (s.lines.drop ap.line.toNat) ap.line A (A - ap.col)
              s.indexToPosCache s.lineToIndexCache).2.1 + 1⟩,
        { s with
          indexToPosCache := (TextStore.idxWalk i (s.lines.drop ap.line.toNat) ap.line A
            (A - ap.col) s.indexToPosCache s.lineToIndexCache).2.2.1
          lineToIndexCache := (TextStore.idxWalk i (s.lines.drop ap.line.toNat) ap.line A
            (A - ap.col) s.indexToPosCache s.lineToIndexCache).2.2.2 }) := by
  unfold TextStore.indexToPosition
  rw [if_neg hle, hanch]

theorem indexToPosition_ok (s : TextStore) (hinv : INV s) (i : Int)
    (h0 : 0 ≤ i) (hle : i ≤ s.size) :
    ∃ p s1, TextStore.indexToPosition s i = .ok (p, s1) ∧
      s1.str = s.str ∧ s1.lines = s.lines ∧ s1.size = s.size ∧
      IdealAt s.lines i (p.line - 1) (p.col - 1) ∧
      (∀ b q, s1.indexToPosCache.arr b = some q → BlockEntrySound s.lines b q) ∧
      (∀ L v, s1.lineToIndexCache.arr L = some v → LineEntrySound s.lines L v) ∧
      s1.lineToIndexCache.arr (p.line - 1) = some (lineStartZ s.lines (p.line - 1) + 1) := by
  cases hanch : TextStore.indexAnchor s.indexToPosCache (roundToLowerBlockSize i) with
  | mk A ap =>
    obtain ⟨ha1, ha2, ha3, ha4, ha5, ha6, ha7, ha8⟩ := indexAnchor_ok s.lines
      s.indexToPosCache (roundToLowerBlockSize i) hinv.bcS hinv.ne (rnd_dvd i) A ap hanch
    have hrle : roundToLowerBlockSize i ≤ i := rnd_le i
    have hA_le : A ≤ i := by
      have := rnd_nonneg h0
      omega
    have hub : i ≤ sumLens s.lines - 1 := by
      have h1 := hinv.szLe
      have h2 := totalLen_eq s.lines hinv.ne
      omega
    obtain ⟨hw1, hw2, hw3, hw4⟩ := idxWalk_spec s.lines i (s.lines.drop ap.line.toNat)
      ap.line A (A - ap.col) s.indexToPosCache s.lineToIndexCache
      ha4 rfl (by omega) (by omega) hub ha1 (by omega) (by omega) hinv.bcS hinv.vcS
    refine ⟨_, _, indexToPosition_eq s i (by omega) hanch, rfl, rfl, rfl, ?_, hw2, hw3, ?_⟩
    · simpa using hw1
    · simpa using hw4

/-- One step of the walk when the first line's span already passes `index`. -/
theorem idxWalk_break (index : Int) (cLine : Str) (rest : List Str)
    (ln closest stepped : Int) (bc : SCache) (vc : VCache)
    (hbr : stepped + ((cLine.length : Int) + 1) > index) :
    TextStore.idxWalk index (cLine :: rest) ln closest stepped bc vc
      = (ln, index - stepped,
         (TextStore.populateBlocks ln stepped
           (((roundToLowerBlockSize (stepped + ((cLine.length : Int) + 1))
             - closest).ediv 10).toNat) bc closest).1,
         vc.set ln (stepped + 1)) := by
  simp only [TextStore.idxWalk]
  rw [if_pos hbr]

theorem indexToPosition_eq0 (s : TextStore) (i : Int) (hle : ¬ i > s.size)
    (hanch : TextStore.indexAnchor s.indexToPosCache (roundToLowerBlockSize i)
      = (0, ⟨0, 0⟩)) :
    TextStore.indexToPosition s i =
      .ok (⟨(TextStore.idxWalk i s.lines 0 0 0 s.indexToPosCache s.lineToIndexCache).1 + 1,
            (TextStore.idxWalk i s.lines 0 0 0 s.indexToPosCache s.lineToIndexCache).2.1 + 1⟩,
        { s with
          indexToPosCache :=
            (TextStore.idxWalk i s.lines 0 0 0 s.indexToPosCache s.lineToIndexCache).2.2.1
          lineToIndexCache :=
            (TextStore.idxWalk i s.lines 0 0 0 s.indexToPosCache s.lineToIndexCache).2.2.2 }) := by
  unfold TextStore.indexToPosition
  rw [if_neg hle, hanch]
  rfl

/-- `indexToPosition` on a negative index: the bound check only tests the
upper end, every probe of the block cache misses (no negative keys exist),
the synthetic anchor is substituted, and the very first line's span passes
the negative index at once, yielding `{line: 1, col: index + 1}`. -/
theorem indexToPosition_negI (s : TextStore) (hinv : INV s) (i : Int)
    (hi : i < 0) (hle : i ≤ s.size) :
    ∃ s1, TextStore.indexToPosition s i = .ok (⟨1, i + 1⟩, s1) ∧
      s1.str = s.str ∧ s1.lines = s.lines ∧ s1.size = s.size ∧
      (∀ b q, s1.indexToPosCache.arr b = some q → BlockEntrySound s.lines b q) ∧
      (∀ L v, s1.lineToIndexCache.arr L = some v → LineEntrySound s.lines L v) := by
  have hanch : TextStore.indexAnchor s.indexToPosCache (roundToLowerBlockSize i)
      = (0, ⟨0, 0⟩) := by
    apply indexAnchor_neg
    · intro b q hq
      exact (hinv.bcS b q hq).1
    · have h1 : roundToLowerBlockSize i ≤ roundToLowerBlockSize (-1) := rnd_mono (by omega)
      have h2 : roundToLowerBlockSize (-1) = -10 := by decide
      omega
  have heq := indexToPosition_eq0 s i (by omega) hanch
  obtain ⟨cLine, rest, hl⟩ : ∃ c r, s.lines = c :: r := by
    cases hx : s.lines with
    | nil => exact absurd hx hinv.ne
    | cons c r => exact ⟨c, r, rfl⟩
  rw [hl] at heq
  have hbr : (0 : Int) + ((cLine.length : Int) + 1) > i := by
    have : (0 : Int) ≤ (cLine.length : Int) := by positivity
    omega
  rw [idxWalk_break i cLine rest 0 0 0 s.indexToPosCache s.lineToIndexCache hbr] at heq
  have hpos : (⟨(0 : Int) + 1, i - 0 + 1⟩ : ITextPosition) = ⟨1, i + 1⟩ := by
    simp
  rw [hpos] at heq
  refine ⟨_, heq, rfl, hl.symm, rfl, ?_, ?_⟩
  · -- soundness of the populated block entries
    intro b q hq
    obtain ⟨hp2, hp1⟩ := populateBlocks_spec 0 0
      (((roundToLowerBlockSize ((0 : Int) + ((cLine.length : Int) + 1)) - 0).ediv 10).toNat)
      s.indexToPosCache 0 (by norm_num)
    rcases hp1 b q hq with h1 | ⟨h1, h2, h3⟩
    · exact hinv.bcS b q h1
    · subst h3
      have hlen0 : lineLenZ s.lines 0 = (cLine.length : Int) := by
        rw [hl]
        rfl
      have hcnt : 10 * ((((roundToLowerBlockSize ((0 : Int) + ((cLine.length : Int) + 1))
          - 0).ediv 10).toNat : Int))
          = roundToLowerBlockSize ((0 : Int) + ((cLine.length : Int) + 1)) := by
        have hr0 : (0 : Int) ≤ roundToLowerBlockSize ((0 : Int) + ((cLine.length : Int) + 1)) :=
          rnd_nonneg (by positivity)
        have hdd : (10 : Int) ∣ roundToLowerBlockSize ((0 : Int) + ((cLine.length : Int) + 1))
            - 0 := by
          have := rnd_dvd ((0 : Int) + ((cLine.length : Int) + 1))
          omega
        have hexact : (roundToLowerBlockSize ((0 : Int) + ((cLine.length : Int) + 1))
            - 0).ediv 10 * 10
            = roundToLowerBlockSize ((0 : Int) + ((cLine.length : Int) + 1)) - 0 :=
          Int.ediv_mul_cancel hdd
        have hnn : (0 : Int) ≤ (roundToLowerBlockSize ((0 : Int) + ((cLine.length : Int) + 1))
            - 0).ediv 10 := Int.ediv_nonneg (by omega) (by norm_num)
        omega
      have hrle : roundToLowerBlockSize ((0 : Int) + ((cLine.length : Int) + 1))
          ≤ (cLine.length : Int) + 1 := by
        have := rnd_le ((0 : Int) + ((cLine.length : Int) + 1))
        omega
      have hlen1 : (0 : Int) < (s.lines.length : Int) := by
        rw [hl]
        simp
      exact ⟨by omega, le_refl 0, hlen1, by simp; omega, by simp [hlen0]; omega, by
        show lineStartZ s.lines 0 + (10 * b - 0) = 10 * b
        rw [show lineStartZ s.lines 0 = 0 from rfl]
        omega⟩
  · intro L v hv
    simp only [VCache.set] at hv
    by_cases hL : L = 0
    · rw [if_pos hL] at hv
      injection hv with hv2
      subst hL
      refine ⟨le_refl 0, by rw [hl]; simp, Or.inr ?_⟩
      rw [show lineStartZ s.lines 0 = 0 from rfl]
      omega
    · rw [if_neg hL] at hv
      exact hinv.vcS L v hv

/-! ### Cache invalidation -/

theorem VCache_set_wf (c : VCache) (k v : Int) (h : VCWf c) : VCWf (c.set k v) := by
  obtain ⟨h0, h1⟩ := h
  refine ⟨?_, ?_⟩
  · show 0 ≤ if 0 ≤ k then max c.len (k + 1) else c.len
    by_cases hk : 0 ≤ k
    · rw [if_pos hk]; omega
    · rw [if_neg hk]; omega
  · intro L w hw
    have hw2 : (if L = k then some v else c.arr L) = some w := hw
    show L < if 0 ≤ k then max c.len (k + 1) else c.len
    by_cases hL : L = k
    · subst hL
      by_cases hk : 0 ≤ L
      · rw [if_pos hk]; omega
      · rw [if_neg hk]; omega
    · rw [if_neg hL] at hw2
      have := h1 L w hw2
      by_cases hk : 0 ≤ k
      · rw [if_pos hk]; omega
      · rw [if_neg hk]; omega

theorem VCache_set_len_ge (c : VCache) (k v : Int) : c.len ≤ (c.set k v).len := by
  show c.len ≤ if 0 ≤ k then max c.len (k + 1) else c.len
  by_cases hk : 0 ≤ k
  · rw [if_pos hk]; omega
  · rw [if_neg hk]

theorem VCache_flush_wf (c : VCache) (frm : Int) (h : VCWf c) : VCWf (c.flush frm) := by
  obtain ⟨h0, h1⟩ := h
  refine ⟨?_, ?_⟩
  · show 0 ≤ if frm < 0 then max (c.len + frm) 0 else min frm c.len
    by_cases hf : frm < 0
    · rw [if_pos hf]; omega
    · rw [if_neg hf]; omega
  · intro L w hw
    have hw2 : (if 0 ≤ L ∧ L < (if frm < 0 then max (c.len + frm) 0 else min frm c.len)
        then c.arr L else none) = some w := hw
    show L < if frm < 0 then max (c.len + frm) 0 else min frm c.len
    by_cases hc : 0 ≤ L ∧ L < (if frm < 0 then max (c.len + frm) 0 else min frm c.len)
    · exact hc.2
    · rw [if_neg hc] at hw2
      cases hw2

theorem VCache_flush_arr_nonneg (c : VCache) (frm : Int) (hf : 0 ≤ frm) (k : Int) :
    (c.flush frm).arr k = if 0 ≤ k ∧ k < min frm c.len then c.arr k else none := by
  show (if 0 ≤ k ∧ k < (if frm < 0 then max (c.len + frm) 0 else min frm c.len)
      then c.arr k else none) = _
  rw [if_neg (show ¬ frm < 0 by omega)]

theorem SCache_flush_arr_nonneg (c : SCache) (frm : Int) (hf : 0 ≤ frm.ediv 10) (k : Int) :
    (c.flush frm).arr k
      = if 0 ≤ k ∧ k < min (frm.ediv 10) c.len then c.arr k else none := by
  show (if 0 ≤ k ∧ k < (if frm.ediv 10 < 0 then max (c.len + frm.ediv 10) 0
      else min (frm.ediv 10) c.len) then c.arr k else none) = _
  rw [if_neg (show ¬ frm.ediv 10 < 0 by omega)]

theorem SCache_flush_sub (c : SCache) (frm b : Int) (q : ITextPosition)
    (h : (c.flush frm).arr b = some q) : c.arr b = some q := by
  have h2 : (if 0 ≤ b ∧ b < (if frm.ediv 10 < 0 then max (c.len + frm.ediv 10) 0
      else min (frm.ediv 10) c.len) then c.arr b else none) = some q := h
  by_cases hc : 0 ≤ b ∧ b < (if frm.ediv 10 < 0 then max (c.len + frm.ediv 10) 0
      else min (frm.ediv 10) c.len)
  · rw [if_pos hc] at h2
    exact h2
  · rw [if_neg hc] at h2
    cases h2

theorem posWalk_len_mono (lines : List Str) :
    ∀ (n : Nat) (vc : VCache) (cur offset target : Int),
    vc.len ≤ ((TextStore.posWalk lines n vc cur offset target).2).len := by
  intro n
  induction n with
  | zero => intro vc cur offset target; exact le_refl _
  | succ n ih =>
    intro vc cur offset target
    simp only [TextStore.posWalk]
    by_cases hct : cur = target
    · rw [if_pos hct]
      exact VCache_set_len_ge vc cur (offset + 1)
    · rw [if_neg hct]
      exact le_trans (VCache_set_len_ge vc cur (offset + 1)) (ih _ _ _ _)

theorem posWalk_len_start (lines : List Str) (n : Nat) (vc : VCache)
    (cur offset target : Int) (h0 : 0 ≤ cur) :
    cur + 1 ≤ ((TextStore.posWalk lines (n + 1) vc cur offset target).2).len := by
  have h1 : cur + 1 ≤ ((vc.set cur (offset + 1)).len) := by
    show cur + 1 ≤ if 0 ≤ cur then max vc.len (cur + 1) else vc.len
    rw [if_pos h0]
    omega
  simp only [TextStore.posWalk]
  by_cases hct : cur = target
  · rw [if_pos hct]
    exact h1
  · rw [if_neg hct]
    exact le_trans h1 (posWalk_len_mono lines n _ _ _ _)

theorem posWalk_wf (lines : List Str) :
    ∀ (n : Nat) (vc : VCache) (cur offset target : Int), VCWf vc →
    VCWf ((TextStore.posWalk lines n vc cur offset target).2) := by
  intro n
  induction n with
  | zero => intro vc cur offset target h; exact h
  | succ n ih =>
    intro vc cur offset target h
    simp only [TextStore.posWalk]
    by_cases hct : cur = target
    · rw [if_pos hct]
      exact VCache_set_wf _ _ _ h
    · rw [if_neg hct]
      exact ih _ _ _ _ (VCache_set_wf _ _ _ h)

theorem zbpti_wf (lines : List Str) (vc : VCache) (zp : ITextPosition)
    (hwf : VCWf vc) :
    VCWf ((TextStore.zeroBasedPosToIndex lines vc zp).2) := by
  unfold TextStore.zeroBasedPosToIndex
  simp only
  by_cases hle : (TextStore.lineAnchor vc zp.line).1 ≤ zp.line
  · rw [if_pos hle]
    exact posWalk_wf lines _ _ _ _ _ hwf
  · rw [if_neg hle]
    exact hwf

theorem sumLens_ge_length (ls : List Str) : (ls.length : Int) ≤ sumLens ls := by
  induction ls with
  | nil => simp [sumLens]
  | cons l t ih =>
    rw [sumLens_cons]
    simp only [List.length_cons]
    push_cast
    omega

theorem lineStartN_ge (lines : List Str) (n : Nat) (h : n ≤ lines.length) :
    (n : Int) ≤ lineStartN lines n := by
  unfold lineStartN
  have h1 := sumLens_ge_length (lines.take n)
  rw [List.length_take] at h1
  omega

theorem Dy_eqInt_toInt (d : Dy) (s : Int) (h : d.eqInt s = true) :
    d.toInt? = some s := by
  unfold Dy.eqInt at h
  have hnum : d.num = s * 2 ^ d.exp := by exact_mod_cast of_decide_eq_true h
  unfold Dy.toInt?
  have hp : (0 : Int) < 2 ^ d.exp := by positivity
  rw [if_pos (by rw [hnum]; exact Int.mul_emod_left s _)]
  rw [hnum]
  exact congrArg some (Int.mul_ediv_cancel s (by omega))

/-- The line search never comes back empty-handed when the entry at its lower
bound is truthy: every dead end either returns the entry at the current lower
bound or recurses, and the lower bound only moves onto keys whose entries are
truthy. -/
theorem lineSearch_not_none (vc : VCache)
    (hpos : ∀ L v, vc.arr L = some v → 0 ≤ L) :
    ∀ (fuel : Nat) (s : Int) (e : Dy), 0 ≤ s → 0 ≤ e.num →
    truthyInt (vc.arr s) ≠ none →
    findHighestCachedLineToIndex vc fuel s e ≠ none := by
  intro fuel
  induction fuel with
  | zero =>
    intro s e hs he ht
    simp only [findHighestCachedLineToIndex]
    cases hx : truthyInt (vc.get s) with
    | none => exact absurd hx ht
    | some w => simp
  | succ n ih =>
    intro s e hs he ht h
    simp only [findHighestCachedLineToIndex] at h
    have hmidnum : (Dy.midWith s e).num = s * 2 ^ e.exp + e.num := rfl
    have hmid0 : 0 ≤ (Dy.midWith s e).num := by
      rw [hmidnum]
      have : (0 : Int) ≤ s * 2 ^ e.exp := mul_nonneg hs (by positivity)
      omega
    split at h
    · rename_i hneg
      unfold Dy.neg? at hneg
      have := of_decide_eq_true hneg
      omega
    · split at h
      · rename_i ret heq
        cases hti : (Dy.midWith s e).toInt? with
        | none =>
          rw [hti] at heq
          simp [truthyInt] at heq
        | some m =>
          rw [hti] at heq
          obtain ⟨harr, hnz⟩ := truthyInt_some heq
          have hm0 : 0 ≤ m := hpos m ret harr
          have htm : truthyInt (vc.arr m) ≠ none := by
            show truthyInt (vc.get m) ≠ none
            rw [heq]
            simp
          split at h
          · simp only [hti, Option.getD_some] at h
            exact ih m e hm0 he htm h
          · simp only [hti, Option.getD_some] at h
            cases h
      · rename_i heq
        split at h
        · exact ih s (Dy.midWith s e) hs hmid0 ht h
        · rename_i hcond
          -- the dead end: the midpoint equals the lower bound, whose entry is
          -- truthy, so the probe at the midpoint cannot have been falsy
          have heqi : (Dy.midWith s e).eqInt s = true := by
            by_contra hc
            exact hcond (by simpa using hc)
          have hti := Dy_eqInt_toInt _ _ heqi
          rw [hti] at heq
          exact ht heq

/-- If `lineAnchor` falls through to the synthetic `(0, 0)` anchor, the line
cache holds no truthy entry at line 0: the direct probes and the search would
all have found it. -/
theorem lineAnchor_cz (lines : List Str) (vc : VCache)
    (hvc : ∀ L v, vc.arr L = some v → LineEntrySound lines L v)
    (target : Int) (ht : 0 ≤ target)
    (h : TextStore.lineAnchor vc target = (0, 0)) :
    truthyInt (vc.arr 0) = none := by
  unfold TextStore.lineAnchor at h
  cases h1 : truthyInt (vc.get target) with
  | some v =>
    rw [h1] at h
    injection h with ha hb
    obtain ⟨harr, hnz⟩ := truthyInt_some h1
    exact absurd hb hnz
  | none =>
    rw [h1] at h
    cases h2 : truthyInt (vc.get (target - 1)) with
    | some v =>
      rw [h2] at h
      injection h with ha hb
      obtain ⟨harr, hnz⟩ := truthyInt_some h2
      exact absurd hb hnz
    | none =>
      rw [h2] at h
      cases h3 : findHighestCachedLineToIndex vc lineSearchFuel 0 (Dy.ofInt target) with
      | some r =>
        rw [h3] at h
        obtain ⟨harr, hnz, hL0, hLt⟩ := lineSearch_sound vc target lineSearchFuel 0
          (Dy.ofInt target) (le_refl 0)
          (by show (0 : Int) * 2 ^ 0 ≤ target; simpa using ht)
          (by show target ≤ target * 2 ^ 0; simp)
          r.1 r.2 (by rw [← h3])
        rw [show r = ((0 : Int), (0 : Int)) from h] at hnz
        exact absurd rfl hnz
      | none =>
        by_contra htr
        have hpos : ∀ L v, vc.arr L = some v → 0 ≤ L := fun L v hv => (hvc L v hv).1
        exact lineSearch_not_none vc hpos lineSearchFuel 0 (Dy.ofInt target)
          (le_refl 0) (by show (0 : Int) ≤ target; exact ht) htr h3

/-! ### Cache invalidation: what an edit's flush guarantees.  The block-cache
flush is `slice(0, rnd(idx) / 10)`, so its behaviour splits on the sign of the
computed index: for a non-negative index everything at or beyond the index's
block is removed; for the (reachable) index `-1` the slice end is negative and
counts from the array's length, retaining entries. -/

theorem flushCache_facts (s : TextStore) (zp : ITextPosition)
    (hvc : ∀ L v, s.lineToIndexCache.arr L = some v → LineEntrySound s.lines L v)
    (hwf : VCWf s.lineToIndexCache)
    (hzp : ValidZP s.lines zp) :
    (TextStore.flushCache s zp).str = s.str ∧
    (TextStore.flushCache s zp).lines = s.lines ∧
    (TextStore.flushCache s zp).size = s.size ∧
    (∀ L, zp.line ≤ L → (TextStore.flushCache s zp).lineToIndexCache.arr L = none) ∧
    (∀ L v, (TextStore.flushCache s zp).lineToIndexCache.arr L = some v →
      L < zp.line ∧ LineEntrySound s.lines L v) ∧
    VCWf (TextStore.flushCache s zp).lineToIndexCache ∧
    (∀ b q, (TextStore.flushCache s zp).indexToPosCache.arr b = some q →
      s.indexToPosCache.arr b = some q) ∧
    (0 ≤ (TextStore.zeroBasedPosToIndex s.lines s.lineToIndexCache zp).1 →
      ∀ b, roundToLowerBlockSize
          (TextStore.zeroBasedPosToIndex s.lines s.lineToIndexCache zp).1 ≤ 10 * b →
        (TextStore.flushCache s zp).indexToPosCache.arr b = none) ∧
    (0 ≤ (TextStore.zeroBasedPosToIndex s.lines s.lineToIndexCache zp).1 →
      ∀ b q, (TextStore.flushCache s zp).indexToPosCache.arr b = some q →
        10 * b < roundToLowerBlockSize
          (TextStore.zeroBasedPosToIndex s.lines s.lineToIndexCache zp).1) ∧
    ((TextStore.zeroBasedPosToIndex s.lines s.lineToIndexCache zp).1 < 0 →
      truthyInt (s.lineToIndexCache.arr 0) = none) ∧
    (1 ≤ zp.line →
      truthyInt ((TextStore.flushCache s zp).lineToIndexCache.arr 0) = none →
      truthyInt (s.lineToIndexCache.arr 0) = none) ∧
    (lineStartZ s.lines zp.line + zp.col - 1
        ≤ (TextStore.zeroBasedPosToIndex s.lines s.lineToIndexCache zp).1 ∧
      (TextStore.zeroBasedPosToIndex s.lines s.lineToIndexCache zp).1
        ≤ lineStartZ s.lines zp.line + zp.col) := by
  obtain ⟨hl0, hl1, hc0, hc1⟩ := hzp
  obtain ⟨δ, hδ, hval, hsound⟩ :=
    zeroBasedPosToIndex_spec s.lines s.lineToIndexCache zp hvc ⟨hl0, hl1, hc0, hc1⟩
  refine ⟨rfl, rfl, rfl, ?_, ?_, ?_, ?_, ?_, ?_, ?_, ?_, by omega⟩
  · intro L hL
    show (((TextStore.zeroBasedPosToIndex s.lines s.lineToIndexCache zp).2).flush
      zp.line).arr L = none
    rw [VCache_flush_arr_nonneg _ _ (by omega)]
    rw [if_neg (by omega)]
  · intro L v hv
    have hv2 : ((((TextStore.zeroBasedPosToIndex s.lines s.lineToIndexCache zp).2).flush
        zp.line).arr L) = some v := hv
    rw [VCache_flush_arr_nonneg _ _ (by omega)] at hv2
    by_cases hc : 0 ≤ L ∧ L < min zp.line
        ((TextStore.zeroBasedPosToIndex s.lines s.lineToIndexCache zp).2).len
    · rw [if_pos hc] at hv2
      exact ⟨by omega, hsound L v hv2⟩
    · rw [if_neg hc] at hv2
      cases hv2
  · show VCWf (((TextStore.zeroBasedPosToIndex s.lines s.lineToIndexCache zp).2).flush
      zp.line)
    exact VCache_flush_wf _ _ (zbpti_wf s.lines s.lineToIndexCache zp hwf)
  · intro b q hq
    exact SCache_flush_sub _ _ _ _ hq
  · intro hI b hb
    show (s.indexToPosCache.flush (roundToLowerBlockSize
      (TextStore.zeroBasedPosToIndex s.lines s.lineToIndexCache zp).1)).arr b = none
    have hdd := rnd_dvd (TextStore.zeroBasedPosToIndex s.lines s.lineToIndexCache zp).1
    have hrn : 0 ≤ roundToLowerBlockSize
        (TextStore.zeroBasedPosToIndex s.lines s.lineToIndexCache zp).1 := rnd_nonneg hI
    have he : 0 ≤ (roundToLowerBlockSize
        (TextStore.zeroBasedPosToIndex s.lines s.lineToIndexCache zp).1).ediv 10 :=
      Int.ediv_nonneg hrn (by norm_num)
    have hcancel : (roundToLowerBlockSize
        (TextStore.zeroBasedPosToIndex s.lines s.lineToIndexCache zp).1).ediv 10 * 10
        = roundToLowerBlockSize
          (TextStore.zeroBasedPosToIndex s.lines s.lineToIndexCache zp).1 :=
      Int.ediv_mul_cancel hdd
    rw [SCache_flush_arr_nonneg _ _ he]
    rw [if_neg (by omega)]
  · intro hI b q hq
    have hq2 : ((s.indexToPosCache.flush (roundToLowerBlockSize
        (TextStore.zeroBasedPosToIndex s.lines s.lineToIndexCache zp).1)).arr b)
        = some q := hq
    have hdd := rnd_dvd (TextStore.zeroBasedPosToIndex s.lines s.lineToIndexCache zp).1
    have hrn : 0 ≤ roundToLowerBlockSize
        (TextStore.zeroBasedPosToIndex s.lines s.lineToIndexCache zp).1 := rnd_nonneg hI
    have he : 0 ≤ (roundToLowerBlockSize
        (TextStore.zeroBasedPosToIndex s.lines s.lineToIndexCache zp).1).ediv 10 :=
      Int.ediv_nonneg hrn (by norm_num)
    have hcancel : (roundToLowerBlockSize
        (TextStore.zeroBasedPosToIndex s.lines s.lineToIndexCache zp).1).ediv 10 * 10
        = roundToLowerBlockSize
          (TextStore.zeroBasedPosToIndex s.lines s.lineToIndexCache zp).1 :=
      Int.ediv_mul_cancel hdd
    rw [SCache_flush_arr_nonneg _ _ he] at hq2
    by_cases hc : 0 ≤ b ∧ b < min ((roundToLowerBlockSize
        (TextStore.zeroBasedPosToIndex s.lines s.lineToIndexCache zp).1).ediv 10)
        s.indexToPosCache.len
    · omega
    · rw [if_neg hc] at hq2
      cases hq2
  · intro hI
    cases hanch : TextStore.lineAnchor s.lineToIndexCache zp.line with
    | mk N w =>
      obtain ⟨hN0, hNt, hNlen, δ2, hδ2, hw⟩ :=
        lineAnchor_ok s.lines s.lineToIndexCache zp.line hvc hl0 hl1 N w hanch
      obtain ⟨hwval, hwarr⟩ := posWalk_spec s.lines ((zp.line - N).toNat + 1)
        s.lineToIndexCache N (w - 1) zp.line hN0 hNt hl1 rfl
      have hIv : (TextStore.zeroBasedPosToIndex s.lines s.lineToIndexCache zp).1
          = (TextStore.posWalk s.lines ((zp.line - N).toNat + 1) s.lineToIndexCache N
              (w - 1) zp.line).1 + zp.col := by
        rw [zeroBasedPosToIndex_eq s.lines s.lineToIndexCache zp hanch hNt]
      have hmono := lineStartZ_mono s.lines hNt
      have hgeN := lineStartN_ge s.lines N.toNat (by omega)
      have heN : lineStartZ s.lines N = lineStartN s.lines N.toNat := rfl
      have hgeT := lineStartN_ge s.lines zp.line.toNat (by omega)
      have heT : lineStartZ s.lines zp.line = lineStartN s.lines zp.line.toNat := rfl
      obtain ⟨hN00, hw0⟩ : N = 0 ∧ w = 0 := by omega
      rw [hN00, hw0] at hanch
      exact lineAnchor_cz s.lines s.lineToIndexCache hvc zp.line hl0 hanch
  · intro hzl hpost
    cases hanch : TextStore.lineAnchor s.lineToIndexCache zp.line with
    | mk N w =>
      obtain ⟨hN0, hNt, hNlen, δ2, hδ2, hw⟩ :=
        lineAnchor_ok s.lines s.lineToIndexCache zp.line hvc hl0 hl1 N w hanch
      obtain ⟨hwval, hwarr⟩ := posWalk_spec s.lines ((zp.line - N).toNat + 1)
        s.lineToIndexCache N (w - 1) zp.line hN0 hNt hl1 rfl
      have hpost2 : truthyInt ((((TextStore.posWalk s.lines ((zp.line - N).toNat + 1)
          s.lineToIndexCache N (w - 1) zp.line).2).flush zp.line).arr 0) = none := by
        have h0 : truthyInt (((((TextStore.zeroBasedPosToIndex s.lines
            s.lineToIndexCache zp).2)).flush zp.line).arr 0) = none := hpost
        rw [zeroBasedPosToIndex_eq s.lines s.lineToIndexCache zp hanch hNt] at h0
        exact h0
      have hlen1 : 1 ≤ ((TextStore.posWalk s.lines ((zp.line - N).toNat + 1)
          s.lineToIndexCache N (w - 1) zp.line).2).len := by
        have := posWalk_len_start s.lines ((zp.line - N).toNat) s.lineToIndexCache
          N (w - 1) zp.line hN0
        omega
      rw [VCache_flush_arr_nonneg _ _ (by omega)] at hpost2
      rw [if_pos (by omega)] at hpost2
      rw [hwarr 0] at hpost2
      by_cases hN : N ≤ 0 ∧ 0 ≤ zp.line
      · rw [if_pos hN] at hpost2
        have hNz : N = 0 := by omega
        have hv0 : w - 1 + (lineStartZ s.lines 0 - lineStartZ s.lines N) + 1 = w := by
          rw [hNz]
          omega
        rw [hv0] at hpost2
        have hwz : w = 0 := by
          by_contra hc
          simp only [truthyInt] at hpost2
          rw [if_neg hc] at hpost2
          cases hpost2
        rw [hNz, hwz] at hanch
        exact lineAnchor_cz s.lines s.lineToIndexCache hvc zp.line hl0 hanch
      · rw [if_neg hN] at hpost2
        exact hpost2

/-! ### Effect of a line splice on line starts and on cache-entry soundness -/

theorem splitNl_head_ge (a : Str) : ∀ s : Str, '\n' ∉ a →
    ∃ h t, splitNl (a ++ s) = h :: t ∧ a.length ≤ h.length := by
  induction a with
  | nil =>
    intro s _
    cases hx : splitNl s with
    | nil => exact absurd hx (splitNl_ne_nil s)
    | cons h t => exact ⟨h, t, by simpa using hx, by simp⟩
  | cons c a2 ih =>
    intro s hnl
    have hc : c ≠ '\n' := by
      intro hc
      exact hnl (hc ▸ List.mem_cons_self c a2)
    have hnl2 : '\n' ∉ a2 := fun hm => hnl (List.mem_cons_of_mem c hm)
    obtain ⟨h, t, hsplit, hlen⟩ := ih s hnl2
    refine ⟨c :: h, t, ?_, by simpa using hlen⟩
    show splitNl (c :: (a2 ++ s)) = (c :: h) :: t
    rw [show splitNl (c :: (a2 ++ s))
      = match splitNl (a2 ++ s) with
        | [] => [[c]]
        | h :: t => (c :: h) :: t from by simp [splitNl, hc]]
    rw [hsplit]

theorem splice_take_eq (lines : List Str) (pl d : Int) (parts : List Str)
    (h1 : pl.toNat ≤ lines.length) (K : Nat) (hK : K ≤ pl.toNat) :
    ((TextStore.listSplice lines pl d parts).1).take K = lines.take K := by
  unfold TextStore.listSplice
  simp only
  rw [min_eq_left h1]
  rw [List.take_append_of_le_length
    (by simp only [List.length_append, List.length_take]; omega)]
  rw [List.take_append_of_le_length (by simp only [List.length_take]; omega)]
  rw [List.take_take, min_eq_left hK]

theorem splice_length_ge (lines : List Str) (pl d : Int) (parts : List Str)
    (h1 : pl.toNat ≤ lines.length) (hne : parts ≠ []) :
    pl.toNat + 1 ≤ ((TextStore.listSplice lines pl d parts).1).length := by
  unfold TextStore.listSplice
  simp only [List.length_append, List.length_take, List.length_drop]
  have := List.length_pos.mpr hne
  omega

theorem splice_lineStart_eq (lines : List Str) (pl d : Int) (parts : List Str)
    (h1 : pl.toNat ≤ lines.length) (L : Int) (hL : L ≤ pl) :
    lineStartZ ((TextStore.listSplice lines pl d parts).1) L = lineStartZ lines L := by
  unfold lineStartZ lineStartN
  rw [splice_take_eq lines pl d parts h1 L.toNat (by omega)]

theorem splice_lineAt_lt (lines : List Str) (pl d : Int) (parts : List Str)
    (h1 : pl.toNat ≤ lines.length) (L : Int) (hL0 : 0 ≤ L) (hL : L < pl) :
    lineAt ((TextStore.listSplice lines pl d parts).1) L = lineAt lines L := by
  rw [lineAt_toNat _ _ hL0, lineAt_toNat _ _ hL0]
  have hlt : L.toNat < pl.toNat := by omega
  calc ((TextStore.listSplice lines pl d parts).1).get? L.toNat
      = (((TextStore.listSplice lines pl d parts).1).take pl.toNat).get? L.toNat :=
        (List.get?_take hlt).symm
    _ = (lines.take pl.toNat).get? L.toNat := by
        rw [splice_take_eq lines pl d parts h1 pl.toNat (le_refl _)]
    _ = lines.get? L.toNat := List.get?_take hlt

theorem splice_lineAt_self (lines : List Str) (pl d : Int) (hfirst : Str)
    (tparts : List Str) (h0 : 0 ≤ pl) (h1 : pl.toNat ≤ lines.length) :
    lineAt ((TextStore.listSplice lines pl d (hfirst :: tparts)).1) pl = some hfirst := by
  rw [lineAt_toNat _ _ h0]
  unfold TextStore.listSplice
  simp only
  rw [min_eq_left h1]
  rw [List.append_assoc]
  rw [List.get?_append_right (by simp only [List.length_take]; omega)]
  simp [List.length_take, min_eq_left h1]

theorem splice_blockEntry (lines : List Str) (pl pc d : Int) (mid2 : Str)
    (hl0 : 0 ≤ pl) (hl1 : pl < (lines.length : Int)) (hc0 : 0 ≤ pc)
    (hc1 : pc ≤ lineLenZ lines pl) (hnl : ∀ l ∈ lines, '\n' ∉ l)
    (b : Int) (q : ITextPosition) (hq : BlockEntrySound lines b q)
    (hlt : 10 * b < lineStartZ lines pl + pc) :
    BlockEntrySound
      ((TextStore.listSplice lines pl d
        (splitNl ((((lineAt lines pl).getD []).take pc.toNat) ++ mid2))).1) b q := by
  obtain ⟨hb1, hb2, hb3, hb4, hb5, hb6⟩ := hq
  have hto : pl.toNat ≤ lines.length := by omega
  obtain ⟨hlt2, hat⟩ := lineAt_get lines pl hl0 hl1
  have hmem : lines.get ⟨pl.toNat, hlt2⟩ ∈ lines := List.get_mem lines pl.toNat hlt2
  have hnlline : '\n' ∉ (lineAt lines pl).getD [] := by
    rw [hat]
    exact hnl _ hmem
  have hnlpre : '\n' ∉ ((lineAt lines pl).getD []).take pc.toNat := by
    intro hm
    exact hnlline (List.take_subset _ _ hm)
  obtain ⟨hfirst, tparts, hsplit, hhead⟩ :=
    splitNl_head_ge (((lineAt lines pl).getD []).take pc.toNat) mid2 hnlpre
  have hprelen : (((lineAt lines pl).getD []).take pc.toNat).length = pc.toNat := by
    rw [List.length_take]
    have : ((lineAt lines pl).getD []).length = lineLenZ lines pl := rfl
    omega
  rw [hsplit]
  have hlen1 := splice_length_ge lines pl d (hfirst :: tparts) hto (by simp)
  rcases lt_trichotomy q.line pl with hcase | hcase | hcase
  · -- entry strictly before the edited line: everything preserved
    refine ⟨hb1, hb2, by push_cast; omega, hb4, ?_, ?_⟩
    · have : lineLenZ ((TextStore.listSplice lines pl d (hfirst :: tparts)).1) q.line
          = lineLenZ lines q.line := by
        unfold lineLenZ
        rw [splice_lineAt_lt lines pl d (hfirst :: tparts) hto q.line hb2 hcase]
      omega
    · rw [splice_lineStart_eq lines pl d (hfirst :: tparts) hto q.line (by omega)]
      exact hb6
  · -- entry on the edited line: its column is below the edit column, and the
    -- new first line keeps at least the edit-column many characters
    subst hcase
    have hcol : q.col < pc := by omega
    refine ⟨hb1, hb2, by push_cast; omega, hb4, ?_, ?_⟩
    · have : lineLenZ ((TextStore.listSplice lines q.line d (hfirst :: tparts)).1) q.line
          = (hfirst.length : Int) := by
        unfold lineLenZ
        rw [splice_lineAt_self lines q.line d hfirst tparts hb2 hto]
        rfl
      omega
    · rw [splice_lineStart_eq lines q.line d (hfirst :: tparts) hto q.line (le_refl _)]
      exact hb6
  · -- an entry beyond the edited line cannot be below the edit offset
    exfalso
    have h1 : lineStartZ lines (pl + 1) ≤ lineStartZ lines q.line :=
      lineStartZ_mono lines (by omega)
    have h2 := lineStartZ_succ lines hl0 hl1
    omega

theorem splice_lineEntry (lines : List Str) (pl d : Int) (parts : List Str)
    (h1 : pl.toNat ≤ lines.length) (hne : parts ≠ []) (L v : Int)
    (hL : L < pl) (hq : LineEntrySound lines L v) :
    LineEntrySound ((TextStore.listSplice lines pl d parts).1) L v := by
  obtain ⟨e0, e1, e2⟩ := hq
  have := splice_length_ge lines pl d parts h1 hne
  refine ⟨e0, by push_cast; omega, ?_⟩
  rw [splice_lineStart_eq lines pl d parts h1 L (by omega)]
  exact e2

theorem sumLens_splice (lines : List Str) (st del : Nat) (parts : List Str) :
    sumLens (lines.take st ++ parts ++ lines.drop (st + del))
      = sumLens lines - sumLens ((lines.drop st).take del) + sumLens parts := by
  have h1 : sumLens lines = sumLens (lines.take st)
      + (sumLens ((lines.drop st).take del) + sumLens (lines.drop (st + del))) := by
    conv_lhs => rw [← List.take_append_drop st lines]
    conv_lhs => rw [← List.take_append_drop del (lines.drop st)]
    rw [List.drop_drop, sumLens_append, sumLens_append]
  simp only [sumLens_append]
  omega

theorem splice_ne_nil (lines : List Str) (pl d : Int) (parts : List Str)
    (hne : parts ≠ []) :
    (TextStore.listSplice lines pl d parts).1 ≠ [] := by
  unfold TextStore.listSplice
  simp only
  intro hc
  have h1 := congrArg List.length hc
  simp only [List.length_append, List.length_nil] at h1
  have h2 := List.length_pos.mpr hne
  omega

theorem splice_noNl (lines : List Str) (pl d : Int) (parts : List Str)
    (h1 : ∀ l ∈ lines, '\n' ∉ l) (h2 : ∀ l ∈ parts, '\n' ∉ l) :
    ∀ l ∈ (TextStore.listSplice lines pl d parts).1, '\n' ∉ l := by
  intro l hl
  unfold TextStore.listSplice at hl
  simp only [List.mem_append] at hl
  rcases hl with (hl | hl) | hl
  · exact h1 l (List.take_subset _ _ hl)
  · exact h2 l hl
  · exact h1 l (List.drop_subset _ _ hl)

/-! ### Weak (arithmetic-only) cache soundness: machinery for the faithful
flush and for walks started from retained (possibly stale) anchors -/

theorem splice_blockArith (lines : List Str) (pl pc d : Int) (parts : List Str)
    (hl0 : 0 ≤ pl) (hl1 : pl < (lines.length : Int)) (hc0 : 0 ≤ pc)
    (hc1 : pc ≤ lineLenZ lines pl) (hne : parts ≠ [])
    (b : Int) (q : ITextPosition) (hq : BlockEntryArith lines b q)
    (hlt : 10 * b < lineStartZ lines pl + pc) :
    BlockEntryArith ((TextStore.listSplice lines pl d parts).1) b q := by
  obtain ⟨hb1, hb2, hb3, hb4, hb6⟩ := hq
  have hto : pl.toNat ≤ lines.length := by omega
  have hlen1 := splice_length_ge lines pl d parts hto hne
  have hline_le : q.line ≤ pl := by
    by_contra hgt
    push_neg at hgt
    have h1 : lineStartZ lines (pl + 1) ≤ lineStartZ lines q.line :=
      lineStartZ_mono lines (by omega)
    have h2 := lineStartZ_succ lines hl0 hl1
    omega
  refine ⟨hb1, hb2, by push_cast; omega, hb4, ?_⟩
  rw [splice_lineStart_eq lines pl d parts hto q.line hline_le]
  exact hb6

/-- If the line cache is cold at line 0 after a `zeroBasedPosToIndex` call, it
was cold at line 0 before it: the walk writes `lineStart + 1` entries, and the
only falsy value it can write at line 0 is the one the synthetic cold-start
anchor produces. -/
theorem zbpti_cold_zero (lines : List Str) (vc : VCache) (zp : ITextPosition)
    (hvc : ∀ L v, vc.arr L = some v → LineEntrySound lines L v)
    (hzp : ValidZP lines zp)
    (hcold : truthyInt (((TextStore.zeroBasedPosToIndex lines vc zp).2).arr 0) = none) :
    truthyInt (vc.arr 0) = none := by
  obtain ⟨hl0, hl1, hc0, hc1⟩ := hzp
  cases hanch : TextStore.lineAnchor vc zp.line with
  | mk N w =>
    obtain ⟨hN0, hNt, hNlen, δ2, hδ2, hw⟩ :=
      lineAnchor_ok lines vc zp.line hvc hl0 hl1 N w hanch
    obtain ⟨hwval, hwarr⟩ := posWalk_spec lines ((zp.line - N).toNat + 1) vc N (w - 1)
      zp.line hN0 hNt hl1 rfl
    have hcold2 : truthyInt (((TextStore.posWalk lines ((zp.line - N).toNat + 1) vc N
        (w - 1) zp.line).2).arr 0) = none := by
      have h0 := hcold
      rw [zeroBasedPosToIndex_eq lines vc zp hanch hNt] at h0
      exact h0
    rw [hwarr 0] at hcold2
    by_cases hN : N ≤ 0 ∧ 0 ≤ zp.line
    · rw [if_pos hN] at hcold2
      have hNz : N = 0 := by omega
      have hv0 : w - 1 + (lineStartZ lines 0 - lineStartZ lines N) + 1 = w := by
        rw [hNz]
        omega
      rw [hv0] at hcold2
      have hwz : w = 0 := by
        by_contra hc
        simp only [truthyInt] at hcold2
        rw [if_neg hc] at hcold2
        cases hcold2
      rw [hNz, hwz] at hanch
      exact lineAnchor_cz lines vc hvc zp.line hl0 hanch
    · rw [if_neg hN] at hcold2
      exact hcold2

/-- Weak counterpart of `indexAnchor_ok`: with only arithmetic soundness of the
block cache (no column bound), the selected anchor still satisfies
`lineStart(ap.line) + ap.col = A` for a non-negative multiple of 10, so the
walk's `stepped = A - ap.col` is exactly the anchor line's start. -/
theorem indexAnchor_arith (lines : List Str) (bc : SCache) (closest0 : Int)
    (hbc : ∀ b q, bc.arr b = some q → BlockEntryArith lines b q)
    (hne : lines ≠ []) (hd : 10 ∣ closest0) :
    ∀ A ap, TextStore.indexAnchor bc closest0 = (A, ap) →
    10 ∣ A ∧ 0 ≤ A ∧ 0 ≤ ap.line ∧ ap.line < (lines.length : Int) ∧ 0 ≤ ap.col ∧
    lineStartZ lines ap.line + ap.col = A := by
  intro A ap h
  have hlen1 : 0 < lines.length := List.length_pos.mpr hne
  unfold TextStore.indexAnchor at h
  unfold DEFAULT_BLOCK_SIZE at h
  have hcancel : closest0.ediv 10 * 10 = closest0 := Int.ediv_mul_cancel hd
  cases hg1 : bc.get closest0 with
  | some p =>
    rw [hg1] at h
    injection h with ha hb
    subst ha; subst hb
    obtain ⟨hb1, hb2, hb3, hb4, hb6⟩ := hbc _ _ hg1
    exact ⟨hd, by omega, hb2, hb3, hb4, by omega⟩
  | none =>
    rw [hg1] at h
    have hd2 : (10 : Int) ∣ closest0 - 10 := by omega
    have hcancel2 : (closest0 - 10).ediv 10 * 10 = closest0 - 10 := Int.ediv_mul_cancel hd2
    cases hg2 : bc.get (closest0 - 10) with
    | some p =>
      rw [hg2] at h
      injection h with ha hb
      subst ha; subst hb
      obtain ⟨hb1, hb2, hb3, hb4, hb6⟩ := hbc _ _ hg2
      exact ⟨hd2, by omega, hb2, hb3, hb4, by omega⟩
    | none =>
      rw [hg2] at h
      by_cases hcl : closest0 ≤ 0
      · have hnone : findHighestCachedIndexToPos bc blockSearchFuel 10 closest0 = none :=
          blockSearch_none_of_le bc 299 hcl
        rw [hnone] at h
        injection h with ha hb
        subst ha; subst hb
        refine ⟨by norm_num, le_refl 0, le_refl 0, ?_, le_refl 0, ?_⟩
        · show (0 : Int) < (lines.length : Int)
          exact_mod_cast hlen1
        · show lineStartZ lines 0 + 0 = 0
          rw [show lineStartZ lines 0 = 0 from rfl]
          omega
      · push_neg at hcl
        have hcl10 : 10 ≤ closest0 := by omega
        cases hf : findHighestCachedIndexToPos bc blockSearchFuel 10 closest0 with
        | some r =>
          rw [hf] at h
          have h2 : r = (A, ap) := h
          subst h2
          obtain ⟨ha1, ha2, ha3, ha4⟩ := blockSearch_sound bc blockSearchFuel 10 closest0
            (le_refl 10) (by norm_num) hd hcl10 A ap hf
          obtain ⟨hb1, hb2, hb3, hb4, hb6⟩ := hbc _ _ ha1
          have hcancel3 : A.ediv 10 * 10 = A := Int.ediv_mul_cancel ha2
          exact ⟨ha2, by omega, hb2, hb3, hb4, by omega⟩
        | none =>
          rw [hf] at h
          injection h with ha hb
          subst ha; subst hb
          refine ⟨by norm_num, le_refl 0, le_refl 0, ?_, le_refl 0, ?_⟩
          · show (0 : Int) < (lines.length : Int)
            exact_mod_cast hlen1
          · show lineStartZ lines 0 + 0 = 0
            rw [show lineStartZ lines 0 = 0 from rfl]
            omega

/-- The anchor is either the literal value of some block-cache entry or the
synthetic `{line: 0, col: 0}` fallback. -/
theorem indexAnchor_entry_or_zero (bc : SCache) (closest0 : Int) (hd : 10 ∣ closest0) :
    ∀ A ap, TextStore.indexAnchor bc closest0 = (A, ap) →
    (∃ k, bc.arr k = some ap) ∨ ap = ⟨0, 0⟩ := by
  intro A ap h
  unfold TextStore.indexAnchor at h
  unfold DEFAULT_BLOCK_SIZE at h
  cases hg1 : bc.get closest0 with
  | some p =>
    rw [hg1] at h
    injection h with ha hb
    subst hb
    exact Or.inl ⟨closest0.ediv 10, hg1⟩
  | none =>
    rw [hg1] at h
    cases hg2 : bc.get (closest0 - 10) with
    | some p =>
      rw [hg2] at h
      injection h with ha hb
      subst hb
      exact Or.inl ⟨(closest0 - 10).ediv 10, hg2⟩
    | none =>
      rw [hg2] at h
      by_cases hcl : closest0 ≤ 0
      · have hnone : findHighestCachedIndexToPos bc blockSearchFuel 10 closest0 = none :=
          blockSearch_none_of_le bc 299 hcl
        rw [hnone] at h
        injection h with ha hb
        subst hb
        exact Or.inr rfl
      · push_neg at hcl
        have hcl10 : 10 ≤ closest0 := by omega
        cases hf : findHighestCachedIndexToPos bc blockSearchFuel 10 closest0 with
        | some r =>
          rw [hf] at h
          have h2 : r = (A, ap) := h
          subst h2
          obtain ⟨ha1, ha2, ha3, ha4⟩ := blockSearch_sound bc blockSearchFuel 10 closest0
            (le_refl 10) (by norm_num) hd hcl10 A ap hf
          exact Or.inl ⟨A.ediv 10, ha1⟩
        | none =>
          rw [hf] at h
          injection h with ha hb
          subst hb
          exact Or.inr rfl

/-- Cache writes of the line walk under the weak invariant only, for any
anchor whose `stepped` is the exact start of the anchor line (which
`indexAnchor_arith` guarantees): every block entry the walk leaves behind is
arithmetically sound (the truncated inner loop writes nothing at a line whose
rounded span end lies below `closest`), every line entry it leaves is sound,
entries below the start line are untouched, and, if there is at least one
line to visit, the start line's entry is written with `stepped + 1`. -/
theorem idxWalk_writes (lines : List Str) (index : Int) :
    ∀ (rem : List Str) (ln closest stepped : Int) (bc : SCache) (vc : VCache),
    0 ≤ ln → rem = lines.drop ln.toNat →
    stepped = lineStartZ lines ln →
    0 ≤ closest → 10 ∣ closest → stepped - 10 < closest →
    (∀ b q, bc.arr b = some q → BlockEntryArith lines b q) →
    (∀ L v, vc.arr L = some v → LineEntrySound lines L v) →
    VCWf vc →
    (∀ b q, ((TextStore.idxWalk index rem ln closest stepped bc vc).2.2.1).arr b = some q →
      BlockEntryArith lines b q) ∧
    (∀ L v, ((TextStore.idxWalk index rem ln closest stepped bc vc).2.2.2).arr L = some v →
      LineEntrySound lines L v) ∧
    VCWf ((TextStore.idxWalk index rem ln closest stepped bc vc).2.2.2) ∧
    (∀ L, L < ln → ((TextStore.idxWalk index rem ln closest stepped bc vc).2.2.2).arr L
      = vc.arr L) ∧
    (rem ≠ [] → ((TextStore.idxWalk index rem ln closest stepped bc vc).2.2.2).arr ln
      = some (stepped + 1)) := by
  intro rem
  induction rem with
  | nil =>
    intro ln closest stepped bc vc h0 hrem hst h0c hd hlo hbcA hvc hwf
    exact ⟨hbcA, hvc, hwf, fun L _ => rfl, fun hne => absurd rfl hne⟩
  | cons cLine rest ih =>
    intro ln closest stepped bc vc h0 hrem hst h0c hd hlo hbcA hvc hwf
    have hlt : ln.toNat < lines.length := by
      by_contra hc
      push_neg at hc
      rw [List.drop_eq_nil_of_le hc] at hrem
      cases hrem
    have hlnlt : ln < (lines.length : Int) := by omega
    have hrest : rest = lines.drop (ln.toNat + 1) :=
      congrArg List.tail (hrem.trans (List.drop_eq_getElem_cons hlt))
    have hgetc : lines[ln.toNat] = cLine := by
      have h2 := List.drop_eq_getElem_cons hlt
      rw [← hrem] at h2
      injection h2 with ha hb
      exact ha.symm
    have hlen : lineLenZ lines ln = (cLine.length : Int) := by
      have hx : lines.get ⟨ln.toNat, hlt⟩ = cLine := by
        rw [← hgetc]
        exact List.get_eq_getElem lines ⟨ln.toNat, hlt⟩
      rw [lineLenZ_get lines ln h0 hlnlt hlt, hx]
    have hafter : stepped + ((cLine.length : Int) + 1) = lineStartZ lines (ln + 1) := by
      rw [lineStartZ_succ lines h0 hlnlt, hlen, hst]
      ring
    have hstop_dvd : 10 ∣ roundToLowerBlockSize (stepped + ((cLine.length : Int) + 1)) :=
      rnd_dvd _
    have hgt := rnd_gt (stepped + ((cLine.length : Int) + 1))
    have hcount : 10 * ((((roundToLowerBlockSize (stepped + ((cLine.length : Int) + 1))
        - closest).ediv 10).toNat : Int))
        = max (roundToLowerBlockSize (stepped + ((cLine.length : Int) + 1)) - closest) 0 := by
      have hdd : (10 : Int) ∣ roundToLowerBlockSize (stepped + ((cLine.length : Int) + 1))
          - closest := by omega
      have h1 : (roundToLowerBlockSize (stepped + ((cLine.length : Int) + 1))
            - closest).ediv 10 * 10
          = roundToLowerBlockSize (stepped + ((cLine.length : Int) + 1)) - closest :=
        Int.ediv_mul_cancel hdd
      omega
    simp only [TextStore.idxWalk]
    obtain ⟨hpop2, hpop1⟩ := populateBlocks_spec ln stepped
      (((roundToLowerBlockSize (stepped + ((cLine.length : Int) + 1)) - closest).ediv 10).toNat)
      bc closest hd
    have hbc1 : ∀ b q,
        ((TextStore.populateBlocks ln stepped
          (((roundToLowerBlockSize (stepped + ((cLine.length : Int) + 1))
            - closest).ediv 10).toNat) bc closest).1).arr b = some q →
        BlockEntryArith lines b q := by
      intro b q h
      rcases hpop1 b q h with h1 | ⟨h1, h2, h3⟩
      · exact hbcA b q h1
      · subst h3
        refine ⟨by omega, h0, hlnlt, by simp; omega, by simp; omega⟩
    have hvc1 : ∀ L v, ((vc.set ln (stepped + 1)).arr L) = some v →
        LineEntrySound lines L v := by
      intro L v h
      simp only [VCache.set] at h
      by_cases hL : L = ln
      · rw [if_pos hL] at h
        injection h with h2
        subst hL
        exact ⟨h0, hlnlt, Or.inr (by omega)⟩
      · rw [if_neg hL] at h
        exact hvc L v h
    have hwf1 : VCWf (vc.set ln (stepped + 1)) := VCache_set_wf vc ln (stepped + 1) hwf
    have hvclow : ∀ L, L < ln → (vc.set ln (stepped + 1)).arr L = vc.arr L := by
      intro L hL
      show (if L = ln then some (stepped + 1) else vc.arr L) = vc.arr L
      rw [if_neg (by omega)]
    have hvcat : (vc.set ln (stepped + 1)).arr ln = some (stepped + 1) := by
      show (if ln = ln then some (stepped + 1) else vc.arr ln) = some (stepped + 1)
      rw [if_pos rfl]
    by_cases hbreak : stepped + ((cLine.length : Int) + 1) > index
    · rw [if_pos hbreak]
      exact ⟨hbc1, hvc1, hwf1, hvclow, fun _ => hvcat⟩
    · rw [if_neg hbreak]
      obtain ⟨ih1, ih2, ih3, ih4, ih5⟩ := ih (ln + 1)
        (TextStore.populateBlocks ln stepped
          (((roundToLowerBlockSize (stepped + ((cLine.length : Int) + 1))
            - closest).ediv 10).toNat) bc closest).2
        (stepped + ((cLine.length : Int) + 1))
        ((TextStore.populateBlocks ln stepped
          (((roundToLowerBlockSize (stepped + ((cLine.length : Int) + 1))
            - closest).ediv 10).toNat) bc closest).1)
        (vc.set ln (stepped + 1))
        (by omega)
        (by rw [hrest]; congr 1; omega)
        (by rw [hafter])
        (by rw [hpop2]; omega)
        (by rw [hpop2]; omega)
        (by rw [hpop2]; omega)
        hbc1 hvc1 hwf1
      refine ⟨ih1, ih2, ih3, ?_, ?_⟩
      · intro L hL
        rw [ih4 L (by omega)]
        exact hvclow L hL
      · intro hne
        rw [ih4 ln (by omega)]
        exact hvcat

/-! ### The mutations -/

theorem insert_case (s : TextStore) (hinv : RINV s) (str : Str) (at_ : ITextPosition)
    (s1 : TextStore) (hnes : str ≠ [])
    (h : TextStore.insert s str at_ = .ok s1) :
    s1.str = s.str ∧
    s1.size = s.size + (str.length : Int) ∧
    s1.lines ≠ [] ∧ (∀ l ∈ s1.lines, '\n' ∉ l) ∧
    sumLens s1.lines = sumLens s.lines + (str.length : Int) ∧
    (∀ L v, s1.lineToIndexCache.arr L = some v → LineEntrySound s1.lines L v) ∧
    VCWf s1.lineToIndexCache ∧
    (∀ b q, s1.indexToPosCache.arr b = some q → BlockEntryArith s1.lines b q) ∧
    (truthyInt (s1.lineToIndexCache.arr 0) = none →
      ∀ b q, s1.indexToPosCache.arr b = some q → q.line = 0) := by
  have hlen0 : ¬ str.length = 0 := by
    intro hc
    exact hnes (List.length_eq_zero.mp hc)
  unfold TextStore.insert at h
  rw [if_neg hlen0] at h
  cases hchk : TextStore.checkTextPosition s.lines (TextStore.convertPosToZeroBased at_) with
  | error e => rw [hchk] at h; cases h
  | ok u =>
    cases u
    rw [hchk] at h
    injection h with h2
    subst h2
    obtain ⟨hl0, hl1, hc0, hc1⟩ := (checkTextPosition_ok_iff s.lines
      (TextStore.convertPosToZeroBased at_)).mp hchk
    obtain ⟨f1, f2, f3, f4, f5, f6, f7, f8, f9, f10, f11, f12⟩ := flushCache_facts s
      (TextStore.convertPosToZeroBased at_) hinv.vcS hinv.vcWf ⟨hl0, hl1, hc0, hc1⟩
    obtain ⟨f12a, f12b⟩ := f12
    -- name the edited position, its line contents and the splice
    have hto : (TextStore.convertPosToZeroBased at_).line.toNat ≤ s.lines.length := by omega
    have hlines : (TextStore.insertApply s str (TextStore.convertPosToZeroBased at_)).lines
        = (TextStore.listSplice s.lines (TextStore.convertPosToZeroBased at_).line 1
            (splitNl
              (((lineAt s.lines (TextStore.convertPosToZeroBased at_).line).getD []).take
                  (TextStore.convertPosToZeroBased at_).col.toNat
                ++ str
                ++ ((lineAt s.lines (TextStore.convertPosToZeroBased at_).line).getD []).drop
                  (TextStore.convertPosToZeroBased at_).col.toNat))).1 := rfl
    have hsz : (TextStore.insertApply s str (TextStore.convertPosToZeroBased at_)).size
        = s.size + (str.length : Int) := by
      show (TextStore.flushCache s (TextStore.convertPosToZeroBased at_)).size
        + (str.length : Int) = s.size + (str.length : Int)
      rw [f3]
    have hvcF : (TextStore.insertApply s str (TextStore.convertPosToZeroBased at_)).lineToIndexCache
        = (TextStore.flushCache s (TextStore.convertPosToZeroBased at_)).lineToIndexCache := rfl
    have hbcF : (TextStore.insertApply s str (TextStore.convertPosToZeroBased at_)).indexToPosCache
        = (TextStore.flushCache s (TextStore.convertPosToZeroBased at_)).indexToPosCache := rfl
    have hstrF : (TextStore.insertApply s str (TextStore.convertPosToZeroBased at_)).str
        = s.str := rfl
    -- abbreviations for the arithmetic
    have hLlen : (((lineAt s.lines (TextStore.convertPosToZeroBased at_).line).getD []).length : Int)
        = lineLenZ s.lines (TextStore.convertPosToZeroBased at_).line := rfl
    have hpcle : (TextStore.convertPosToZeroBased at_).col.toNat
        ≤ ((lineAt s.lines (TextStore.convertPosToZeroBased at_).line).getD []).length := by omega
    have hupd : ((((lineAt s.lines (TextStore.convertPosToZeroBased at_).line).getD []).take
          (TextStore.convertPosToZeroBased at_).col.toNat
        ++ str
        ++ ((lineAt s.lines (TextStore.convertPosToZeroBased at_).line).getD []).drop
          (TextStore.convertPosToZeroBased at_).col.toNat).length : Int)
        = lineLenZ s.lines (TextStore.convertPosToZeroBased at_).line + (str.length : Int) := by
      simp only [List.length_append, List.length_take, List.length_drop]
      push_cast
      omega
    refine ⟨hstrF, hsz, ?_, ?_, ?_, ?_, ?_, ?_, ?_⟩
    · -- nonempty
      rw [hlines]
      exact splice_ne_nil _ _ _ _ (splitNl_ne_nil _)
    · -- no newlines
      rw [hlines]
      exact splice_noNl _ _ _ _ hinv.noNl (splitNl_noNl _)
    · -- total length bookkeeping
      rw [hlines]
      have hspl : (TextStore.listSplice s.lines (TextStore.convertPosToZeroBased at_).line 1
          (splitNl
            (((lineAt s.lines (TextStore.convertPosToZeroBased at_).line).getD []).take
                (TextStore.convertPosToZeroBased at_).col.toNat
              ++ str
              ++ ((lineAt s.lines (TextStore.convertPosToZeroBased at_).line).getD []).drop
                (TextStore.convertPosToZeroBased at_).col.toNat))).1
          = s.lines.take (TextStore.convertPosToZeroBased at_).line.toNat
            ++ (splitNl
              (((lineAt s.lines (TextStore.convertPosToZeroBased at_).line).getD []).take
                  (TextStore.convertPosToZeroBased at_).col.toNat
                ++ str
                ++ ((lineAt s.lines (TextStore.convertPosToZeroBased at_).line).getD []).drop
                  (TextStore.convertPosToZeroBased at_).col.toNat))
            ++ s.lines.drop ((TextStore.convertPosToZeroBased at_).line.toNat + 1) := by
        unfold TextStore.listSplice
        simp only
        rw [min_eq_left hto]
        rw [show ((1 : Int)).toNat = 1 from rfl]
        rw [min_eq_left (by omega)]
      rw [hspl, sumLens_splice]
      have hlt : (TextStore.convertPosToZeroBased at_).line.toNat < s.lines.length := by omega
      have hrem1 : (s.lines.drop (TextStore.convertPosToZeroBased at_).line.toNat).take 1
          = [s.lines[(TextStore.convertPosToZeroBased at_).line.toNat]] := by
        rw [List.drop_eq_getElem_cons hlt]
        rw [List.take_succ_cons, List.take_zero]
      have hremsum : sumLens ((s.lines.drop (TextStore.convertPosToZeroBased at_).line.toNat).take 1)
          = lineLenZ s.lines (TextStore.convertPosToZeroBased at_).line + 1 := by
        rw [hrem1]
        rw [show sumLens [s.lines[(TextStore.convertPosToZeroBased at_).line.toNat]]
          = ((s.lines[(TextStore.convertPosToZeroBased at_).line.toNat]).length : Int) + 1 from by
            simp [sumLens]]
        have : lineLenZ s.lines (TextStore.convertPosToZeroBased at_).line
            = ((s.lines[(TextStore.convertPosToZeroBased at_).line.toNat]).length : Int) := by
          rw [lineLenZ_get s.lines _ hl0 hl1 hlt]
          rfl
        omega
      rw [hremsum, sumLens_splitNl, hupd]
      ring
    · -- surviving line entries are sound for the new document
      intro L v hv
      rw [hvcF] at hv
      obtain ⟨hLlt, hLs⟩ := f5 L v hv
      rw [hlines]
      exact splice_lineEntry s.lines (TextStore.convertPosToZeroBased at_).line 1
        (splitNl _) hto (splitNl_ne_nil _) L v hLlt hLs
    · -- the line cache stays well formed
      show VCWf (TextStore.insertApply s str
        (TextStore.convertPosToZeroBased at_)).lineToIndexCache
      rw [hvcF]
      exact f6
    · -- surviving block entries are arithmetically sound for the new document
      intro b q hq
      rw [hbcF] at hq
      have hpre := f7 b q hq
      have harith := hinv.bcA b q hpre
      by_cases hI : 0 ≤ (TextStore.zeroBasedPosToIndex s.lines s.lineToIndexCache
          (TextStore.convertPosToZeroBased at_)).1
      · have hblt := f9 hI b q hq
        have hrle := rnd_le (TextStore.zeroBasedPosToIndex s.lines s.lineToIndexCache
          (TextStore.convertPosToZeroBased at_)).1
        rw [hlines]
        exact splice_blockArith s.lines (TextStore.convertPosToZeroBased at_).line
          (TextStore.convertPosToZeroBased at_).col 1 _ hl0 hl1 hc0 hc1
          (splitNl_ne_nil _) b q harith (by omega)
      · push_neg at hI
        have hline0 := hinv.cz (f10 (by omega)) b q hpre
        obtain ⟨hb1, hq0, hqlt, hqc0, hqeq⟩ := harith
        have hne1 : (TextStore.insertApply s str
            (TextStore.convertPosToZeroBased at_)).lines ≠ [] := by
          rw [hlines]
          exact splice_ne_nil _ _ _ _ (splitNl_ne_nil _)
        refine ⟨hb1, by omega, ?_, hqc0, ?_⟩
        · rw [hline0]
          have hp := List.length_pos.mpr hne1
          exact_mod_cast hp
        · rw [hline0]
          rw [hline0] at hqeq
          rw [show lineStartZ (TextStore.insertApply s str
              (TextStore.convertPosToZeroBased at_)).lines 0 = 0 from rfl]
          rw [show lineStartZ s.lines 0 = 0 from rfl] at hqeq
          omega
    · -- cold-zero coupling: a falsy line-0 slot pins all entries to line 0
      intro hcold b q hq
      rw [hvcF] at hcold
      rw [hbcF] at hq
      have hpre := f7 b q hq
      by_cases hzl : 1 ≤ (TextStore.convertPosToZeroBased at_).line
      · exact hinv.cz (f11 hzl hcold) b q hpre
      · by_cases hI : 0 ≤ (TextStore.zeroBasedPosToIndex s.lines s.lineToIndexCache
            (TextStore.convertPosToZeroBased at_)).1
        · have hz0 : (TextStore.convertPosToZeroBased at_).line = 0 := by omega
          have hblt := f9 hI b q hq
          have hrle := rnd_le (TextStore.zeroBasedPosToIndex s.lines s.lineToIndexCache
            (TextStore.convertPosToZeroBased at_)).1
          obtain ⟨hb1, hq0, hqlt, hqc0, hqeq⟩ := hinv.bcA b q hpre
          by_contra hqL
          have hq1 : (1 : Int) ≤ q.line := by omega
          have h1 : lineStartZ s.lines 1 ≤ lineStartZ s.lines q.line :=
            lineStartZ_mono s.lines hq1
          have h2 : lineStartZ s.lines 1
              = lineStartZ s.lines 0 + lineLenZ s.lines 0 + 1 := by
            have h3 := lineStartZ_succ s.lines (le_refl 0)
              (by exact_mod_cast List.length_pos.mpr hinv.ne)
            simpa using h3
          have hz : lineStartZ s.lines 0 = 0 := rfl
          rw [hz0] at f12b hc1
          omega
        · push_neg at hI
          exact hinv.cz (f10 (by omega)) b q hpre

theorem replaceApply_case (s : TextStore) (hinv : RINV s) (ps pe : ITextPosition)
    (str : Str) (hv1 : ValidZP s.lines ps) (hv2 : ValidZP s.lines pe) :
    (TextStore.replaceApply s ps pe str).str = s.str ∧
    (TextStore.replaceApply s ps pe str).lines ≠ [] ∧
    (∀ l ∈ (TextStore.replaceApply s ps pe str).lines, '\n' ∉ l) ∧
    (TextStore.replaceApply s ps pe str).size
        - totalLenZ (TextStore.replaceApply s ps pe str).lines
      ≤ s.size - totalLenZ s.lines ∧
    (ps.line ≤ pe.line →
      (TextStore.replaceApply s ps pe str).size
          - totalLenZ (TextStore.replaceApply s ps pe str).lines
        = s.size - totalLenZ s.lines) ∧
    (∀ L v, (TextStore.replaceApply s ps pe str).lineToIndexCache.arr L = some v →
      LineEntrySound (TextStore.replaceApply s ps pe str).lines L v) ∧
    VCWf (TextStore.replaceApply s ps pe str).lineToIndexCache ∧
    (∀ b q, (TextStore.replaceApply s ps pe str).indexToPosCache.arr b = some q →
      BlockEntryArith (TextStore.replaceApply s ps pe str).lines b q) ∧
    (truthyInt ((TextStore.replaceApply s ps pe str).lineToIndexCache.arr 0) = none →
      ∀ b q, (TextStore.replaceApply s ps pe str).indexToPosCache.arr b = some q →
        q.line = 0) := by
  obtain ⟨hl0, hl1, hc0, hc1⟩ := hv1
  obtain ⟨he0, he1, hec0, hec1⟩ := hv2
  obtain ⟨f1, f2, f3, f4, f5, f6, f7, f8, f9, f10, f11, f12⟩ := flushCache_facts s ps
    hinv.vcS hinv.vcWf ⟨hl0, hl1, hc0, hc1⟩
  obtain ⟨f12a, f12b⟩ := f12
  have hto : ps.line.toNat ≤ s.lines.length := by omega
  have hlines : (TextStore.replaceApply s ps pe str).lines
      = (TextStore.listSplice s.lines ps.line (pe.line + 1 - ps.line)
          (splitNl (updatedRegion s.lines ps pe str))).1 := rfl
  have hsz0 : (TextStore.replaceApply s ps pe str).size
      = s.size
        - (((joinLines ((TextStore.listSplice s.lines ps.line (pe.line + 1 - ps.line)
            (splitNl (updatedRegion s.lines ps pe str))).2)).length : Int))
        + (((updatedRegion s.lines ps pe str).length : Int)) := by
    show (TextStore.flushCache s ps).size
        - (((joinLines ((TextStore.listSplice s.lines ps.line (pe.line + 1 - ps.line)
            (splitNl (updatedRegion s.lines ps pe str))).2)).length : Int))
        + (((updatedRegion s.lines ps pe str).length : Int)) = _
    rw [f3]
  have hvcF : (TextStore.replaceApply s ps pe str).lineToIndexCache
      = (TextStore.flushCache s ps).lineToIndexCache := rfl
  have hbcF : (TextStore.replaceApply s ps pe str).indexToPosCache
      = (TextStore.flushCache s ps).indexToPosCache := rfl
  have hstrF : (TextStore.replaceApply s ps pe str).str = s.str := rfl
  have hspl : TextStore.listSplice s.lines ps.line (pe.line + 1 - ps.line)
        (splitNl (updatedRegion s.lines ps pe str))
      = (s.lines.take ps.line.toNat ++ splitNl (updatedRegion s.lines ps pe str)
          ++ s.lines.drop (ps.line.toNat
            + min (pe.line + 1 - ps.line).toNat (s.lines.length - ps.line.toNat)),
        (s.lines.drop ps.line.toNat).take
          (min (pe.line + 1 - ps.line).toNat (s.lines.length - ps.line.toNat))) := by
    unfold TextStore.listSplice
    simp only
    rw [min_eq_left hto]
  have h1pr : (TextStore.listSplice s.lines ps.line (pe.line + 1 - ps.line)
        (splitNl (updatedRegion s.lines ps pe str))).1
      = s.lines.take ps.line.toNat ++ splitNl (updatedRegion s.lines ps pe str)
          ++ s.lines.drop (ps.line.toNat
            + min (pe.line + 1 - ps.line).toNat (s.lines.length - ps.line.toNat)) := by
    rw [hspl]
  have h2pr : (TextStore.listSplice s.lines ps.line (pe.line + 1 - ps.line)
        (splitNl (updatedRegion s.lines ps pe str))).2
      = (s.lines.drop ps.line.toNat).take
          (min (pe.line + 1 - ps.line).toNat (s.lines.length - ps.line.toNat)) := by
    rw [hspl]
  rw [h2pr] at hsz0
  have hsum0 : sumLens (TextStore.replaceApply s ps pe str).lines
      = sumLens s.lines
        - sumLens ((s.lines.drop ps.line.toNat).take
            (min (pe.line + 1 - ps.line).toNat (s.lines.length - ps.line.toNat)))
        + (((updatedRegion s.lines ps pe str).length : Int) + 1) := by
    rw [hlines, h1pr, sumLens_splice, sumLens_splitNl]
  have hne' : (TextStore.replaceApply s ps pe str).lines ≠ [] := by
    rw [hlines]
    exact splice_ne_nil _ _ _ _ (splitNl_ne_nil _)
  have htot' : totalLenZ (TextStore.replaceApply s ps pe str).lines
      = sumLens (TextStore.replaceApply s ps pe str).lines - 1 := totalLen_eq _ hne'
  have htots : totalLenZ s.lines = sumLens s.lines - 1 := totalLen_eq s.lines hinv.ne
  refine ⟨hstrF, hne', ?_, ?_, ?_, ?_, ?_, ?_, ?_⟩
  · -- no newlines in the new document
    rw [hlines]
    exact splice_noNl _ _ _ _ hinv.noNl (splitNl_noNl _)
  · -- the size counter never overshoots the real length
    rw [hsz0, htot', hsum0, htots]
    by_cases hrem : ((s.lines.drop ps.line.toNat).take
        (min (pe.line + 1 - ps.line).toNat (s.lines.length - ps.line.toNat))) = []
    · have hJL : ((joinLines ((s.lines.drop ps.line.toNat).take
          (min (pe.line + 1 - ps.line).toNat (s.lines.length - ps.line.toNat)))).length : Int)
          = 0 := by
        rw [hrem]
        rfl
      have hSR : sumLens ((s.lines.drop ps.line.toNat).take
          (min (pe.line + 1 - ps.line).toNat (s.lines.length - ps.line.toNat))) = 0 := by
        rw [hrem]
        rfl
      omega
    · have hJL := joinLines_length _ hrem
      omega
  · -- with a well-ordered range the spliced-out lines are nonempty and the
    -- counter tracks the real length exactly
    intro hord
    rw [hsz0, htot', hsum0, htots]
    have hRne : ((s.lines.drop ps.line.toNat).take
        (min (pe.line + 1 - ps.line).toNat (s.lines.length - ps.line.toNat))) ≠ [] := by
      intro hc
      have hlen := congrArg List.length hc
      simp only [List.length_take, List.length_drop, List.length_nil] at hlen
      omega
    have hJL := joinLines_length _ hRne
    omega
  · -- surviving line entries are sound for the new document
    intro L v hv
    rw [hvcF] at hv
    obtain ⟨hLlt, hLs⟩ := f5 L v hv
    rw [hlines]
    exact splice_lineEntry s.lines ps.line (pe.line + 1 - ps.line)
      (splitNl _) hto (splitNl_ne_nil _) L v hLlt hLs
  · -- the line cache stays well formed
    show VCWf (TextStore.replaceApply s ps pe str).lineToIndexCache
    rw [hvcF]
    exact f6
  · -- surviving block entries are arithmetically sound for the new document
    intro b q hq
    rw [hbcF] at hq
    have hpre := f7 b q hq
    have harith := hinv.bcA b q hpre
    by_cases hI : 0 ≤ (TextStore.zeroBasedPosToIndex s.lines s.lineToIndexCache ps).1
    · have hblt := f9 hI b q hq
      have hrle := rnd_le (TextStore.zeroBasedPosToIndex s.lines s.lineToIndexCache ps).1
      rw [hlines]
      exact splice_blockArith s.lines ps.line ps.col (pe.line + 1 - ps.line) _
        hl0 hl1 hc0 hc1 (splitNl_ne_nil _) b q harith (by omega)
    · push_neg at hI
      have hline0 := hinv.cz (f10 (by omega)) b q hpre
      obtain ⟨hb1, hq0, hqlt, hqc0, hqeq⟩ := harith
      refine ⟨hb1, by omega, ?_, hqc0, ?_⟩
      · rw [hline0]
        have hp := List.length_pos.mpr hne'
        exact_mod_cast hp
      · rw [hline0]
        rw [hline0] at hqeq
        rw [show lineStartZ (TextStore.replaceApply s ps pe str).lines 0 = 0 from rfl]
        rw [show lineStartZ s.lines 0 = 0 from rfl] at hqeq
        omega
  · -- cold-zero coupling
    intro hcold b q hq
    rw [hvcF] at hcold
    rw [hbcF] at hq
    have hpre := f7 b q hq
    by_cases hzl : 1 ≤ ps.line
    · exact hinv.cz (f11 hzl hcold) b q hpre
    · by_cases hI : 0 ≤ (TextStore.zeroBasedPosToIndex s.lines s.lineToIndexCache ps).1
      · have hz0 : ps.line = 0 := by omega
        have hblt := f9 hI b q hq
        have hrle := rnd_le (TextStore.zeroBasedPosToIndex s.lines s.lineToIndexCache ps).1
        obtain ⟨hb1, hq0, hqlt, hqc0, hqeq⟩ := hinv.bcA b q hpre
        by_contra hqL
        have hq1 : (1 : Int) ≤ q.line := by omega
        have h1 : lineStartZ s.lines 1 ≤ lineStartZ s.lines q.line :=
          lineStartZ_mono s.lines hq1
        have h2 : lineStartZ s.lines 1
            = lineStartZ s.lines 0 + lineLenZ s.lines 0 + 1 := by
          have h3 := lineStartZ_succ s.lines (le_refl 0)
            (by exact_mod_cast List.length_pos.mpr hinv.ne)
          simpa using h3
        have hz : lineStartZ s.lines 0 = 0 := rfl
        rw [hz0] at f12b hc1
        omega
      · push_neg at hI
        exact hinv.cz (f10 (by omega)) b q hpre

theorem replace_case (s : TextStore) (range : ITextRange) (str : Str)
    (s1 : TextStore) (h : TextStore.replace s range str = .ok s1) :
    s1 = TextStore.replaceApply s (TextStore.convertPosToZeroBased range.start)
        (TextStore.convertPosToZeroBased range.endPos) str ∧
    ValidZP s.lines (TextStore.convertPosToZeroBased range.start) ∧
    ValidZP s.lines (TextStore.convertPosToZeroBased range.endPos) := by
  unfold TextStore.replace at h
  cases hchk1 : TextStore.checkTextPosition s.lines
      (TextStore.convertPosToZeroBased range.start) with
  | error e => rw [hchk1] at h; cases h
  | ok u =>
    cases u
    rw [hchk1] at h
    cases hchk2 : TextStore.checkTextPosition s.lines
        (TextStore.convertPosToZeroBased range.endPos) with
    | error e => rw [hchk2] at h; cases h
    | ok u2 =>
      cases u2
      rw [hchk2] at h
      injection h with h2
      exact ⟨h2.symm,
        (checkTextPosition_ok_iff s.lines _).mp hchk1,
        (checkTextPosition_ok_iff s.lines _).mp hchk2⟩

/-! ### The conversions as state transformers -/

theorem indexToPosition_case (s : TextStore) (hinv : RINV s) (i : Int)
    (p : ITextPosition) (s1 : TextStore)
    (h : TextStore.indexToPosition s i = .ok (p, s1)) :
    s1.str = s.str ∧ s1.lines = s.lines ∧ s1.size = s.size ∧
    (∀ L v, s1.lineToIndexCache.arr L = some v → LineEntrySound s.lines L v) ∧
    VCWf s1.lineToIndexCache ∧
    (∀ b q, s1.indexToPosCache.arr b = some q → BlockEntryArith s.lines b q) ∧
    (truthyInt (s1.lineToIndexCache.arr 0) = none →
      ∀ b q, s1.indexToPosCache.arr b = some q → q.line = 0) := by
  have hle : ¬ i > s.size := by
    intro hgt
    unfold TextStore.indexToPosition at h
    rw [if_pos hgt] at h
    cases h
  cases hanch : TextStore.indexAnchor s.indexToPosCache (roundToLowerBlockSize i) with
  | mk A ap =>
    obtain ⟨ha1, ha2, ha4, ha5, ha6, ha8⟩ := indexAnchor_arith s.lines
      s.indexToPosCache (roundToLowerBlockSize i) hinv.bcA hinv.ne (rnd_dvd i) A ap hanch
    obtain ⟨hw1, hw2, hw3, hw4, hw5⟩ := idxWalk_writes s.lines i (s.lines.drop ap.line.toNat)
      ap.line A (A - ap.col) s.indexToPosCache s.lineToIndexCache
      ha4 rfl (by omega) ha2 ha1 (by omega) hinv.bcA hinv.vcS hinv.vcWf
    have heq := indexToPosition_eq s i hle hanch
    rw [heq] at h
    injection h with h2
    injection h2 with hp hs1
    subst hs1
    refine ⟨rfl, rfl, rfl, hw2, hw3, hw1, ?_⟩
    intro hcold b q hq
    have hcold2 : truthyInt (((TextStore.idxWalk i (s.lines.drop ap.line.toNat) ap.line A
        (A - ap.col) s.indexToPosCache s.lineToIndexCache).2.2.2).arr 0) = none := hcold
    by_cases hap0 : ap.line = 0
    · exfalso
      have hrem : s.lines.drop ap.line.toNat ≠ [] := by
        have ht0 : ap.line.toNat = 0 := by omega
        rw [ht0, List.drop_zero]
        exact hinv.ne
      have h5 := hw5 hrem
      have h0eq : ((TextStore.idxWalk i (s.lines.drop ap.line.toNat) ap.line A
          (A - ap.col) s.indexToPosCache s.lineToIndexCache).2.2.2).arr 0
          = ((TextStore.idxWalk i (s.lines.drop ap.line.toNat) ap.line A
          (A - ap.col) s.indexToPosCache s.lineToIndexCache).2.2.2).arr ap.line :=
        congrArg _ hap0.symm
      rw [h0eq, h5] at hcold2
      have hACol : A - ap.col = 0 := by
        rw [hap0] at ha8
        rw [show lineStartZ s.lines 0 = 0 from rfl] at ha8
        omega
      rw [show A - ap.col + 1 = 1 by omega] at hcold2
      simp only [truthyInt] at hcold2
      rw [if_neg (by norm_num)] at hcold2
      cases hcold2
    · have h4 := hw4 0 (by omega)
      rw [h4] at hcold2
      obtain hentry | hzero := indexAnchor_entry_or_zero s.indexToPosCache
        (roundToLowerBlockSize i) (rnd_dvd i) A ap hanch
      · obtain ⟨k, hk⟩ := hentry
        exact absurd (hinv.cz hcold2 k ap hk) hap0
      · exact absurd (by rw [hzero]) hap0

theorem positionToIndex_case (s : TextStore) (hinv : RINV s) (pos : ITextPosition)
    (i : Int) (s1 : TextStore)
    (h : TextStore.positionToIndex s pos = .ok (i, s1)) :
    s1.str = s.str ∧ s1.lines = s.lines ∧ s1.size = s.size ∧
    s1.indexToPosCache = s.indexToPosCache ∧
    (∀ L v, s1.lineToIndexCache.arr L = some v → LineEntrySound s.lines L v) ∧
    VCWf s1.lineToIndexCache ∧
    (truthyInt (s1.lineToIndexCache.arr 0) = none →
      truthyInt (s.lineToIndexCache.arr 0) = none) := by
  unfold TextStore.positionToIndex at h
  simp only at h
  cases hchk : TextStore.checkTextPosition s.lines (TextStore.convertPosToZeroBased pos) with
  | error e => rw [hchk] at h; cases h
  | ok u =>
    cases u
    rw [hchk] at h
    injection h with h2
    injection h2 with ha hb
    subst hb
    have hzp := (checkTextPosition_ok_iff s.lines
      (TextStore.convertPosToZeroBased pos)).mp hchk
    obtain ⟨δ, hδ, hval, hsound⟩ := zeroBasedPosToIndex_spec s.lines s.lineToIndexCache
      (TextStore.convertPosToZeroBased pos) hinv.vcS hzp
    refine ⟨rfl, rfl, rfl, rfl, hsound,
      zbpti_wf s.lines s.lineToIndexCache (TextStore.convertPosToZeroBased pos) hinv.vcWf,
      ?_⟩
    intro hcold
    exact zbpti_cold_zero s.lines s.lineToIndexCache (TextStore.convertPosToZeroBased pos)
      hinv.vcS hzp hcold

/-! ### The weak invariant holds in every reachable state -/

theorem construct_INV (str : Str) : INV (TextStore.construct str) := by
  refine ⟨splitNl_ne_nil str, splitNl_noNl str, ?_, ?_, ?_⟩
  · show (str.length : Int) ≤ totalLenZ (splitNl str)
    unfold totalLenZ
    rw [joinLines_splitNl]
  · intro b q hq
    exact Option.noConfusion hq
  · intro L v hv
    exact Option.noConfusion hv

theorem construct_RINV (str : Str) : RINV (TextStore.construct str) := by
  refine ⟨splitNl_ne_nil str, splitNl_noNl str, ?_, ?_, ?_, ?_, ?_⟩
  · show (str.length : Int) ≤ totalLenZ (splitNl str)
    unfold totalLenZ
    rw [joinLines_splitNl]
  · intro L v hv
    exact Option.noConfusion hv
  · refine ⟨le_refl 0, ?_⟩
    intro L v hv
    exact Option.noConfusion hv
  · intro b p hp
    exact Option.noConfusion hp
  · intro h b p hp
    exact Option.noConfusion hp

theorem construct_sizeEq (str : Str) :
    (TextStore.construct str).size = totalLenZ (TextStore.construct str).lines := by
  show (str.length : Int) = totalLenZ (splitNl str)
  unfold totalLenZ
  rw [joinLines_splitNl]

theorem insert_nil (s : TextStore) (at_ : ITextPosition) :
    TextStore.insert s [] at_ = .ok s := rfl

theorem reachable_RINV {s : TextStore} (h : Reachable s) : RINV s := by
  induction h with
  | construct str => exact construct_RINV str
  | @insert s0 s1 str at_ hr heq ih =>
    by_cases hstr : str = []
    · subst hstr
      rw [insert_nil s0 at_] at heq
      injection heq with h2
      rw [← h2]
      exact ih
    · obtain ⟨c1, c2, c3, c4, c5, c6, c7, c8, c9⟩ := insert_case s0 ih str at_ s1 hstr heq
      have htot1 := totalLen_eq s1.lines c3
      have htot0 := totalLen_eq s0.lines ih.ne
      have hsz0 := ih.szLe
      exact ⟨c3, c4, by omega, c6, c7, c8, c9⟩
  | @replace s0 s1 range str hr heq ih =>
    obtain ⟨hs1, hv1, hv2⟩ := replace_case s0 range str s1 heq
    obtain ⟨r1, r2, r3, r4, r5, r6, r7, r8, r9⟩ := replaceApply_case s0 ih
      (TextStore.convertPosToZeroBased range.start)
      (TextStore.convertPosToZeroBased range.endPos) str hv1 hv2
    subst hs1
    have hsz0 := ih.szLe
    exact ⟨r2, r3, by omega, r6, r7, r8, r9⟩
  | @indexToPosition s0 s1 i p hr heq ih =>
    obtain ⟨hstr, hlines, hsize, hvc, hwf, hbc, hcz⟩ := indexToPosition_case s0 ih i p s1 heq
    refine ⟨?_, ?_, ?_, ?_, hwf, ?_, hcz⟩
    · rw [hlines]; exact ih.ne
    · rw [hlines]; exact ih.noNl
    · rw [hsize, hlines]; exact ih.szLe
    · intro L v hv
      rw [hlines]
      exact hvc L v hv
    · intro b q hq
      rw [hlines]
      exact hbc b q hq
  | @positionToIndex s0 s1 pos i hr heq ih =>
    obtain ⟨hstr, hlines, hsize, hbceq, hvc, hwf, hcp⟩ := positionToIndex_case s0 ih pos i s1 heq
    refine ⟨?_, ?_, ?_, ?_, hwf, ?_, ?_⟩
    · rw [hlines]; exact ih.ne
    · rw [hlines]; exact ih.noNl
    · rw [hsize, hlines]; exact ih.szLe
    · intro L v hv
      rw [hlines]
      exact hvc L v hv
    · intro b q hq
      rw [hbceq] at hq
      rw [hlines]
      exact ih.bcA b q hq
    · intro hcold b q hq
      rw [hbceq] at hq
      exact ih.cz (hcp hcold) b q hq

theorem reachableOrd_sizeEq {s : TextStore} (h : ReachableOrd s) :
    RINV s ∧ s.size = totalLenZ s.lines := by
  induction h with
  | construct str => exact ⟨construct_RINV str, construct_sizeEq str⟩
  | @insert s0 s1 str at_ hr heq ih =>
    obtain ⟨ihI, ihE⟩ := ih
    by_cases hstr : str = []
    · subst hstr
      rw [insert_nil s0 at_] at heq
      injection heq with h2
      rw [← h2]
      exact ⟨ihI, ihE⟩
    · obtain ⟨c1, c2, c3, c4, c5, c6, c7, c8, c9⟩ := insert_case s0 ihI str at_ s1 hstr heq
      have htot1 := totalLen_eq s1.lines c3
      have htot0 := totalLen_eq s0.lines ihI.ne
      exact ⟨⟨c3, c4, by omega, c6, c7, c8, c9⟩, by omega⟩
  | @replace s0 s1 range str hr hord heq ih =>
    obtain ⟨ihI, ihE⟩ := ih
    obtain ⟨hs1, hv1, hv2⟩ := replace_case s0 range str s1 heq
    obtain ⟨r1, r2, r3, r4, r5, r6, r7, r8, r9⟩ := replaceApply_case s0 ihI
      (TextStore.convertPosToZeroBased range.start)
      (TextStore.convertPosToZeroBased range.endPos) str hv1 hv2
    subst hs1
    have hzs : (TextStore.convertPosToZeroBased range.start).line = range.start.line - 1 := rfl
    have hze : (TextStore.convertPosToZeroBased range.endPos).line
        = range.endPos.line - 1 := rfl
    have hEq := r5 (by omega)
    exact ⟨⟨r2, r3, by omega, r6, r7, r8, r9⟩, by omega⟩
  | @indexToPosition s0 s1 i p hr heq ih =>
    obtain ⟨ihI, ihE⟩ := ih
    obtain ⟨hstr, hlines, hsize, hvc, hwf, hbc, hcz⟩ := indexToPosition_case s0 ihI i p s1 heq
    refine ⟨⟨?_, ?_, ?_, ?_, hwf, ?_, hcz⟩, ?_⟩
    · rw [hlines]; exact ihI.ne
    · rw [hlines]; exact ihI.noNl
    · rw [hsize, hlines]; exact ihI.szLe
    · intro L v hv
      rw [hlines]
      exact hvc L v hv
    · intro b q hq
      rw [hlines]
      exact hbc b q hq
    · rw [hsize, hlines]; exact ihE
  | @positionToIndex s0 s1 pos i hr heq ih =>
    obtain ⟨ihI, ihE⟩ := ih
    obtain ⟨hstr, hlines, hsize, hbceq, hvc, hwf, hcp⟩ := positionToIndex_case s0 ihI pos i s1 heq
    refine ⟨⟨?_, ?_, ?_, ?_, hwf, ?_, ?_⟩, ?_⟩
    · rw [hlines]; exact ihI.ne
    · rw [hlines]; exact ihI.noNl
    · rw [hsize, hlines]; exact ihI.szLe
    · intro L v hv
      rw [hlines]
      exact hvc L v hv
    · intro b q hq
      rw [hbceq] at hq
      rw [hlines]
      exact ihI.bcA b q hq
    · intro hcold b q hq
      rw [hbceq] at hq
      exact ihI.cz (hcp hcold) b q hq
    · rw [hsize, hlines]; exact ihE

/-! ### Helper: the success path of positionToIndex -/

theorem positionToIndex_eq (s : TextStore) (pos : ITextPosition)
    (hchk : TextStore.checkTextPosition s.lines (TextStore.convertPosToZeroBased pos)
      = .ok ()) :
    TextStore.positionToIndex s pos
      = .ok ((TextStore.zeroBasedPosToIndex s.lines s.lineToIndexCache
            (TextStore.convertPosToZeroBased pos)).1,
          { s with lineToIndexCache := (TextStore.zeroBasedPosToIndex s.lines
            s.lineToIndexCache (TextStore.convertPosToZeroBased pos)).2 }) := by
  unfold TextStore.positionToIndex
  simp only
  rw [hchk]

/-! ### The claims -/

set_option maxRecDepth 100000 in
/-- C1: the position→index→position round trip is claimed to restore every
in-bounds position for any prior cache state.  It does not: on a freshly
constructed `"hello\nworld"` buffer, the synthetic line-search anchor decodes
one short, `positionToIndex ⟨2,1⟩` returns 5 instead of 6, and the round trip
lands on `⟨1,6⟩` (the newline slot of line 1) instead of `⟨2,1⟩`. -/
theorem c1_cold_round_trip_fails :
    roundTripPI (TextStore.construct hwStr) ⟨2, 1⟩ = some ⟨1, 6⟩ ∧
    ((⟨1, 6⟩ : ITextPosition) ≠ ⟨2, 1⟩) := by decide

set_option maxRecDepth 100000 in
/-- C2: conversion results are claimed to be identical on cold and on warmed
caches.  They are not: `positionToIndex ⟨2,1⟩` on the fresh `"hello\nworld"`
buffer returns 5, but after `indexToPosition 6` has warmed the line cache the
same call returns 6 — the cache state is observable in results. -/
theorem c2_cache_state_observable :
    posIdxVal (TextStore.construct hwStr) ⟨2, 1⟩ = some 5 ∧
    posIdxVal (afterIdxToPos (TextStore.construct hwStr) 6) ⟨2, 1⟩ = some 6 := by decide

/-- C3: `getContents(range)` is claimed never to fail.  It does:
`clampTextPosition` clamps the zero-based line into `[1, lineCount]`, so an
end line at or beyond the line count clamps to `lineCount` and the subsequent
`this.lines[clampedLine].length` read is a `TypeError` (here on the two-line
buffer `"hello\nworld"` with a range at line 3). -/
theorem c3_getContents_raises :
    TextStore.getContents (TextStore.construct hwStr) ⟨⟨3, 1⟩, ⟨3, 1⟩⟩
      = .error .typeError := by decide

/-- C4 (amended): the full validation taxonomy of `checkTextPosition` on a
zero-based position.  A line beyond `lineCount + 1` (zero-based
`> lines.length`) is `PositionOutOfRange`; a negative line or a line equal to
the line count raises a `TypeError` (the `lines[pos.line].length` read runs
before the negativity test); an in-range line with a column past the line
length is `PositionOutOfRange`; a negative column on an in-range line is
`InvalidPosition`; everything else passes. -/
theorem c4_validation_taxonomy (lines : List Str) (zp : ITextPosition) :
    TextStore.checkTextPosition lines zp
      = if (lines.length : Int) < zp.line then .error .positionOutOfRange
        else if zp.line < 0 ∨ zp.line = (lines.length : Int) then .error .typeError
        else if lineLenZ lines zp.line < zp.col then .error .positionOutOfRange
        else if zp.col < 0 then .error .invalidPosition
        else .ok () := by
  unfold TextStore.checkTextPosition
  split
  · rfl
  · rename_i h1
    split
    · rename_i hnone
      rw [lineAt_none_iff] at hnone
      rw [if_pos (by omega)]
    · rename_i l hat
      have hb : ¬ (zp.line < 0 ∨ (lines.length : Int) ≤ zp.line) := by
        rw [← lineAt_none_iff, hat]
        intro hc
        exact Option.noConfusion hc
      have hlen : lineLenZ lines zp.line = (l.length : Int) := by
        unfold lineLenZ
        rw [hat]
        rfl
      rw [if_neg (show ¬ (zp.line < 0 ∨ zp.line = (lines.length : Int)) from by omega)]
      by_cases h3 : zp.col > (l.length : Int)
      · rw [if_pos h3,
          if_pos (show lineLenZ lines zp.line < zp.col from by omega)]
      · rw [if_neg h3,
          if_neg (show ¬ lineLenZ lines zp.line < zp.col from by omega)]
        by_cases h4 : zp.col < 0
        · rw [if_pos (Or.inl h4), if_pos h4]
        · rw [if_neg (show ¬ (zp.col < 0 ∨ zp.line < 0) from by omega), if_neg h4]

/-- C4 counterexample: position `⟨0, 1⟩` (negative after zero-basing) is
claimed to fail with `InvalidPosition`; `positionToIndex` actually raises a
`TypeError`, because `lines[-1].length` is read before the sign test. -/
theorem c4_negative_line_typeError :
    posIdxErr (TextStore.construct hwStr) ⟨0, 1⟩ = some .typeError ∧
    JsError.typeError ≠ JsError.invalidPosition := by decide

/-- On a store satisfying the strong invariant `INV` (fully sound caches),
`indexToPosition i` succeeds for every `0 ≤ i ≤ size` and `positionToIndex`
on the returned position gives `i` back.  Reachable states need not satisfy
`INV` (see `hangState`), so this conditional round trip does not settle the
unconditional claim. -/
theorem c5_index_round_trip (s : TextStore) (hinv : INV s) (i : Int)
    (h0 : 0 ≤ i) (hle : i ≤ s.size) :
    ∃ p s1 s2, TextStore.indexToPosition s i = .ok (p, s1) ∧
      TextStore.positionToIndex s1 p = .ok (i, s2) := by
  obtain ⟨p, s1, heq, hstr, hlines, hsize, hIdeal, hbc, hvc, hcache⟩ :=
    indexToPosition_ok s hinv i h0 hle
  obtain ⟨hi0, hi1, hi2, hi3, hi4⟩ := hIdeal
  have hzl : (TextStore.convertPosToZeroBased p).line = p.line - 1 := rfl
  have hzc : (TextStore.convertPosToZeroBased p).col = p.col - 1 := rfl
  have hvalid : ValidZP s1.lines (TextStore.convertPosToZeroBased p) := by
    rw [hlines]
    unfold ValidZP
    refine ⟨?_, ?_, ?_, ?_⟩
    · rw [hzl]; omega
    · rw [hzl]; omega
    · rw [hzc]; omega
    · rw [hzl, hzc]; omega
  have hchk : TextStore.checkTextPosition s1.lines (TextStore.convertPosToZeroBased p)
      = .ok () := (checkTextPosition_ok_iff s1.lines _).mpr hvalid
  refine ⟨p, s1, { s1 with lineToIndexCache := (TextStore.zeroBasedPosToIndex s1.lines
    s1.lineToIndexCache (TextStore.convertPosToZeroBased p)).2 }, heq, ?_⟩
  rw [positionToIndex_eq s1 p hchk]
  have hentry : s1.lineToIndexCache.arr (TextStore.convertPosToZeroBased p).line
      = some (lineStartZ s1.lines (TextStore.convertPosToZeroBased p).line + 1) := by
    rw [hzl, hlines]
    exact hcache
  have hval := zeroBasedPosToIndex_exact s1.lines s1.lineToIndexCache
    (TextStore.convertPosToZeroBased p) (by rw [hzl]; omega)
    (by rw [hzl, hlines]; omega) hentry
  have hval2 : (TextStore.zeroBasedPosToIndex s1.lines s1.lineToIndexCache
      (TextStore.convertPosToZeroBased p)).1 = i := by
    rw [hval, hzl, hzc, hlines]
    omega
  rw [hval2]

/-- The conditional round trip at index 6 of the fresh `"hello\nworld"`
buffer. -/
theorem c5_index_round_trip_witness :
    ∃ p s1 s2, TextStore.indexToPosition (TextStore.construct hwStr) 6 = .ok (p, s1) ∧
      TextStore.positionToIndex s1 p = .ok (6, s2) :=
  c5_index_round_trip (TextStore.construct hwStr) (construct_INV hwStr) 6
    (by decide) (by decide)

set_option maxRecDepth 100000 in
/-- C5: the index→position→index round trip is claimed for every index
`0 ≤ i ≤ size` and any prior cache state.  It fails: `hangState` is reached
by four public calls, `12` lies in `[0, size]` there, yet `indexToPosition 12`
never returns — its anchor is the retained block entry at offset 10 of the
shrunken document, the walk's first line span ends at rounded offset 0, and
the inner `while (closestIndex !== highestIndexableStop)` loop only steps the
closest index upward from 10 — so no round trip at 12 can complete. -/
theorem c5_round_trip_never_completes :
    Reachable hangState ∧ (0 : Int) ≤ 12 ∧ (12 : Int) ≤ hangState.size ∧
    TextStore.indexToPositionDiverges hangState 12 = true := by
  refine ⟨?_, by decide, by decide, by decide⟩
  exact Reachable.replace
    (Reachable.insert
      (Reachable.indexToPosition (Reachable.construct wideStr)
        (show TextStore.indexToPosition (TextStore.construct wideStr) 60
            = .ok (⟨2, 25⟩, afterIdxToPos (TextStore.construct wideStr) 60) from rfl))
      (show TextStore.insert (afterIdxToPos (TextStore.construct wideStr) 60) (['x']) ⟨1, 36⟩
          = .ok (afterInsert (afterIdxToPos (TextStore.construct wideStr) 60)
              (['x']) ⟨1, 36⟩) from rfl))
    (show TextStore.replace (afterInsert (afterIdxToPos (TextStore.construct wideStr) 60)
          (['x']) ⟨1, 36⟩) ⟨⟨1, 1⟩, ⟨2, 31⟩⟩ hangRepl
        = .ok hangState from rfl)

set_option maxRecDepth 100000 in
/-- C6: an edit at zero-based position `p` is claimed to remove every block
cache entry for offsets at or beyond the block containing `p`'s pre-edit
absolute offset.  The `replace` that produces `hangState` edits at zero-based
`⟨0, 0⟩` — absolute offset `0`, block offset `0` — so every entry should go;
but the entry for block 1 (offset 10) survives the edit: on the cold line
cache the flush computes index `-1`, and `slice(0, (-1 / 10) * 10 / 10)` =
`slice(0, -1)` keeps all but the last slot instead of clearing the array. -/
theorem c6_edit_retains_block_entry :
    TextStore.convertPosToZeroBased (⟨1, 1⟩ : ITextPosition) = ⟨0, 0⟩ ∧
    lineStartZ (afterInsert (afterIdxToPos (TextStore.construct wideStr) 60)
        (['x']) ⟨1, 36⟩).lines 0 + 0 = 0 ∧
    TextStore.replace (afterInsert (afterIdxToPos (TextStore.construct wideStr) 60)
        (['x']) ⟨1, 36⟩) ⟨⟨1, 1⟩, ⟨2, 31⟩⟩ hangRepl
      = .ok hangState ∧
    hangState.indexToPosCache.arr 1 = some ⟨0, 10⟩ ∧
    roundToLowerBlockSize 0 ≤ 10 * 1 :=
  ⟨by decide, by decide, rfl, by decide, by decide⟩

set_option maxRecDepth 100000 in
/-- C8: every public operation is claimed to terminate on every input.  It
does not: on the reachable `hangState`, `indexToPosition 12` passes the bound
check, anchors on the retained block entry `(10, {line: 0, col: 10})`, and
enters the inner `while (closestIndex !== highestIndexableStop)` loop of the
line walk with `closestIndex = 10` and a stop of `roundToLowerBlockSize 3 = 0`;
the loop only ever increments `closestIndex` by 10, so the disequality test
never fails and the call runs forever. -/
theorem c8_index_to_position_hangs :
    Reachable hangState ∧
    TextStore.indexAnchor hangState.indexToPosCache (roundToLowerBlockSize 12)
      = (10, ⟨0, 10⟩) ∧
    TextStore.idxWalkDiverges 12 hangState.lines 10 0 = true ∧
    TextStore.indexToPositionDiverges hangState 12 = true := by
  refine ⟨?_, by decide, by decide, by decide⟩
  exact Reachable.replace
    (Reachable.insert
      (Reachable.indexToPosition (Reachable.construct wideStr)
        (show TextStore.indexToPosition (TextStore.construct wideStr) 60
            = .ok (⟨2, 25⟩, afterIdxToPos (TextStore.construct wideStr) 60) from rfl))
      (show TextStore.insert (afterIdxToPos (TextStore.construct wideStr) 60) (['x']) ⟨1, 36⟩
          = .ok (afterInsert (afterIdxToPos (TextStore.construct wideStr) 60)
              (['x']) ⟨1, 36⟩) from rfl))
    (show TextStore.replace (afterInsert (afterIdxToPos (TextStore.construct wideStr) 60)
          (['x']) ⟨1, 36⟩) ⟨⟨1, 1⟩, ⟨2, 31⟩⟩ hangRepl
        = .ok hangState from rfl)

/-- C7 (amended: every `replace`/`remove` range must be well ordered,
`start.line ≤ end.line`): after construction and any sequence of successful
mutations with well-ordered ranges, `getSize()` equals the length of
`getContents()`. -/
theorem c7_size_matches_contents (s : TextStore) (h : ReachableOrd s) :
    TextStore.getSize s = ((TextStore.getContentsAll s).length : Int) :=
  (reachableOrd_sizeEq h).2

/-- C7 witness: size consistency of the freshly constructed `"hello\nworld"`
buffer. -/
theorem c7_size_matches_contents_witness :
    TextStore.getSize (TextStore.construct hwStr)
      = ((TextStore.getContentsAll (TextStore.construct hwStr)).length : Int) :=
  c7_size_matches_contents (TextStore.construct hwStr) (ReachableOrd.construct hwStr)

set_option maxRecDepth 100000 in
/-- C7 counterexample: one successful `remove` with an inverted range
(`start` after `end`) on `"a\nb"` leaves `getSize() = 4` while the joined
contents have length 5 — the size counter desynchronises. -/
theorem c7_inverted_range_desyncs :
    TextStore.getSize (afterRemove (TextStore.construct abStr) ⟨⟨2, 1⟩, ⟨1, 1⟩⟩) = 4 ∧
    ((TextStore.getContentsAll (afterRemove (TextStore.construct abStr)
        ⟨⟨2, 1⟩, ⟨1, 1⟩⟩)).length : Int) = 5 := by decide

/-- C9 (amended): in every reachable state, every line-cache entry names an
existing zero-based line `L` and stores either `lineStart + 1` (the encoding
the walks write and decode) or `lineStart` itself (entries written downstream
of the synthetic cold-start anchor), where `lineStart` is the offset at which
line `L` begins. -/
theorem c9_line_cache_entries (s : TextStore) (h : Reachable s) (L v : Int)
    (hv : s.lineToIndexCache.arr L = some v) :
    0 ≤ L ∧ L < (s.lines.length : Int) ∧
      (v = lineStartZ s.lines L ∨ v = lineStartZ s.lines L + 1) :=
  (reachable_RINV h).vcS L v hv

set_option maxRecDepth 100000 in
/-- C9 witness: after `indexToPosition 6` on the fresh `"hello\nworld"`
buffer the entry for line 1 exists and is one of the two offsets. -/
theorem c9_line_cache_entries_witness :
    0 ≤ (1 : Int) ∧
    (1 : Int) < ((afterIdxToPos (TextStore.construct hwStr) 6).lines.length : Int) ∧
      ((7 : Int) = lineStartZ (afterIdxToPos (TextStore.construct hwStr) 6).lines 1 ∨
       (7 : Int) = lineStartZ (afterIdxToPos (TextStore.construct hwStr) 6).lines 1 + 1) :=
  c9_line_cache_entries (afterIdxToPos (TextStore.construct hwStr) 6)
    (Reachable.indexToPosition (Reachable.construct hwStr)
      (show TextStore.indexToPosition (TextStore.construct hwStr) 6
        = .ok (⟨2, 1⟩, afterIdxToPos (TextStore.construct hwStr) 6) from rfl))
    1 7 (by decide)

set_option maxRecDepth 100000 in
/-- C9 counterexample: the entry written for line 1 of `"hello\nworld"` is 7,
not the line's start offset 6 — the value is an off-by-one encoding of the
start offset, not the start offset the claim states. -/
theorem c9_entry_is_not_line_start :
    (afterIdxToPos (TextStore.construct hwStr) 6).lineToIndexCache.arr 1 = some 7 ∧
    lineStartZ (TextStore.construct hwStr).lines 1 = 6 := by decide

/-- C10 (amended: only for `i ≤ size`): on a sound store, `indexToPosition`
with a negative index `i ≤ size` raises nothing and returns
`{line: 1, col: i + 1}` (below the documented 1-based minimum); when
`i > size` — possible for negative `i` because reachable states can have a
negative size counter — it raises `IndexOutOfRange`. -/
theorem c10_negative_index (s : TextStore) (hinv : INV s) (i : Int) (hneg : i < 0) :
    (i ≤ s.size → ∃ s1, TextStore.indexToPosition s i = .ok (⟨1, i + 1⟩, s1)) ∧
    (s.size < i → TextStore.indexToPosition s i = .error .indexOutOfRange) := by
  constructor
  · intro hle
    obtain ⟨s1, heq, h1, h2, h3, h4, h5⟩ := indexToPosition_negI s hinv i hneg hle
    exact ⟨s1, heq⟩
  · intro hgt
    unfold TextStore.indexToPosition
    rw [if_pos (show i > s.size from hgt)]

/-- C10 witness: index `-1` on the fresh `"hello\nworld"` buffer returns
`{line: 1, col: 0}` without raising. -/
theorem c10_negative_index_witness :
    ∃ s1, TextStore.indexToPosition (TextStore.construct hwStr) (-1)
      = .ok (⟨1, -1 + 1⟩, s1) :=
  (c10_negative_index (TextStore.construct hwStr) (construct_INV hwStr) (-1)
    (by decide)).1 (by decide)

set_option maxRecDepth 100000 in
/-- C10 counterexample: a reachable state (two inverted-range removes, then an
ordered remove of the whole document) has size `-2`, and `indexToPosition (-1)`
on it raises `IndexOutOfRange` — a negative index is not always accepted. -/
theorem c10_negative_index_raises :
    c10state.size = -2 ∧ idxPosErr c10state (-1) = some .indexOutOfRange := by decide
